import Mathlib

/-!
# KY-023 joystick driver (`KY023.cpp`, class `Joy`)

A shallow embedding of the calibration and projection code of the driver.

Conventions of the embedding:
* `byte` is an unsigned 8-bit integer and `word` an unsigned 16-bit integer (the AVR
  target of the driver); both are carried as `Nat`, every operation that can leave the
  range reduces its result modulo `2^8` / `2^16`.
* `int` is a signed 16-bit integer, `long` a signed 32-bit integer, carried as `Int`.
* `float` is IEEE 754 binary32: a `float` value is carried as the rational it denotes, and
  every `float` division, multiplication and addition rounds its exact result to the
  nearest value with a 24-bit significand, ties to even (`roundF32`).  A `word` converts to
  `float` exactly.  The conversion of a `float` to `word` truncates toward zero.  A `float`
  division by zero, or a conversion whose truncated value does not fit a `word`, has no
  defined integer result and is reported as `none`.
* `analogRead` is the host platform's sampling primitive.  For `readJoyAxis` it is a map
  from pin to the sample taken by that call; for the calibration loop it is the stream of
  successive samples of the calibrated pin.
-/

namespace KY023

/-! ## Machine integers -/

/-- Conversion of an integer value to `word` (unsigned 16 bit): reduction modulo `2^16`. -/
def toWord (z : Int) : Nat := (z % 65536).toNat

/-- Conversion of an integer value to `byte` (unsigned 8 bit): reduction modulo `2^8`. -/
def toByte (z : Int) : Nat := (z % 256).toNat

/-- Conversion of a `word` to `int` (signed 16 bit, two's complement). -/
def wordToInt (w : Nat) : Int :=
  if w % 65536 < 32768 then ((w % 65536 : Nat) : Int) else ((w % 65536 : Nat) : Int) - 65536

/-- Truncation of a rational toward zero. -/
def truncQ (x : ℚ) : Int := if 0 ≤ x then ⌊x⌋ else ⌈x⌉

/-- Conversion of a `float` value to `word`: the fractional part is discarded; the result
is undefined when the truncated value is not in `0 .. 65535`. -/
def floatToWord (x : ℚ) : Option Nat :=
  if x ≤ -1 ∨ 65536 ≤ x then none else some (truncQ x).toNat

/-- Rounding of a rational to the nearest integer, ties to the even integer. -/
def roundHalfEven (y : ℚ) : Int :=
  if 2 * Int.fract y < 1 then ⌊y⌋
  else if 1 < 2 * Int.fract y then ⌊y⌋ + 1
  else if ⌊y⌋ % 2 = 0 then ⌊y⌋ else ⌊y⌋ + 1

/-- Exponent of the unit in the last place of the 24-bit significand that holds `x`:
`2^(ulpExp x + 23) ≤ |x| < 2^(ulpExp x + 24)`. -/
def ulpExp (x : ℚ) : Int := Int.log 2 |x| - 23

/-- Rounding of an exact result to binary32: round to nearest, ties to even, with a 24-bit
significand. The exponent is not bounded: the quotients, products and sums the driver
forms from 16-bit integers are zero or lie between `2^-16` and `2^32`, inside the normal
range of binary32, where this is the IEEE 754 rounding. -/
def roundF32 (x : ℚ) : ℚ :=
  if x = 0 then 0 else (roundHalfEven (x / (2 : ℚ) ^ ulpExp x) : ℚ) * (2 : ℚ) ^ ulpExp x

/-- The `float` division: the quotient rounded to binary32; a zero divisor yields no finite
value. -/
def floatDiv (a b : ℚ) : Option ℚ :=
  if b = 0 then none else some (roundF32 (a / b))

/-- The `float` multiplication: the product rounded to binary32. -/
def floatMul (a b : ℚ) : ℚ := roundF32 (a * b)

/-- The `float` addition: the sum rounded to binary32. -/
def floatAdd (a b : ℚ) : ℚ := roundF32 (a + b)

/-- Arduino core `map` (`WMath.cpp`):
`(x - in_min) * (out_max - out_min) / (in_max - in_min) + out_min` over `long`, with the
C++ integer division that truncates toward zero. All uses in the driver stay far inside
the 32-bit range. -/
def map (x in_min in_max out_min out_max : Int) : Int :=
  Int.tdiv ((x - in_min) * (out_max - out_min)) (in_max - in_min) + out_min

/-! ## Class `Joy` -/

/-- Data members of `Joy`. -/
structure Joy where
  X_PIN : Nat
  Y_PIN : Nat
  BUTTON_PIN : Nat
  DEADZONE_RADIUS : Nat
  x_center : Nat
  y_center : Nat
  deriving Repr, DecidableEq

/-- Alias for the x axis. -/
def X_AXIS : Nat := 0

/-- Alias for the y axis. -/
def Y_AXIS : Nat := 1

/-- Max joystick output. -/
def XY_MAX_IN : Nat := 1023

/-- Max casted output. -/
def XY_MAX_OUT : Nat := 255

/-- Constant `sureCount` of `getAxisCenter`. -/
def sureCount : Nat := 10

/-- Local variables of `getAxisCenter`, together with the number of samples taken so far. -/
structure CenterState where
  lastRead : Nat
  readCount : Nat
  reads : Nat
  deriving Repr, DecidableEq

/-- One execution of the body of the `while` loop of `getAxisCenter`: the first sample is
stored in `lastRead`, the second one is compared with it. `readCount` is a `byte`. -/
def getAxisCenterBody (analogRead : Nat → Nat) (st : CenterState) : CenterState :=
  let lastRead := analogRead st.reads
  if analogRead (st.reads + 1) = lastRead then
    { lastRead := lastRead, readCount := (st.readCount + 1) % 256, reads := st.reads + 2 }
  else
    { lastRead := lastRead, readCount := 0, reads := st.reads + 2 }

/-- The `while (readCount<sureCount)` loop, run for at most `fuel` executions of its body;
`none` when the loop is still running after `fuel` executions. -/
def getAxisCenterLoop (analogRead : Nat → Nat) : Nat → CenterState → Option CenterState
  | 0, st => if st.readCount < sureCount then none else some st
  | fuel + 1, st =>
    if st.readCount < sureCount then
      getAxisCenterLoop analogRead fuel (getAxisCenterBody analogRead st)
    else some st

/-- Initial values of the local variables of `getAxisCenter`. -/
def centerInit : CenterState := { lastRead := 0, readCount := 0, reads := 0 }

/-- Final state of `getAxisCenter`, from `lastRead = 0`, `readCount = 0`. -/
def getAxisCenterRun (analogRead : Nat → Nat) (fuel : Nat) : Option CenterState :=
  getAxisCenterLoop analogRead fuel centerInit

/-- Method `Joy::getAxisCenter`: the `int lastRead` is returned as a `word`. `analogRead k` is the
`k`-th sample the pin delivers. -/
def getAxisCenter (analogRead : Nat → Nat) (fuel : Nat) : Option Nat :=
  (getAxisCenterRun analogRead fuel).map fun st => toWord st.lastRead

/-- Method `Joy::x_lower_edge`. -/
def x_lower_edge (j : Joy) : Nat := toWord ((j.x_center : Int) - (j.DEADZONE_RADIUS : Int))
/-- Method `Joy::x_upper_edge`. -/
def x_upper_edge (j : Joy) : Nat := toWord ((j.x_center : Int) + (j.DEADZONE_RADIUS : Int))
/-- Method `Joy::y_lower_edge`. -/
def y_lower_edge (j : Joy) : Nat := toWord ((j.y_center : Int) - (j.DEADZONE_RADIUS : Int))
/-- Method `Joy::y_upper_edge`. -/
def y_upper_edge (j : Joy) : Nat := toWord ((j.y_center : Int) + (j.DEADZONE_RADIUS : Int))

/-- Method `Joy::castToByte`: `map(axis_read, 0, XY_MAX_IN, 0, XY_MAX_OUT)` returned as a `byte`. -/
def castToByte (axis_read : Int) : Nat :=
  toByte (map axis_read 0 XY_MAX_IN 0 XY_MAX_OUT)

/-- Method `Joy::reverse`: `map(value_to_reverse, 0, XY_MAX_OUT, XY_MAX_OUT, 0)` returned as a
`byte`. -/
def reverse (value_to_reverse : Nat) : Nat :=
  toByte (map (value_to_reverse % 256 : Nat) 0 XY_MAX_OUT XY_MAX_OUT 0)

/-- Method `Joy::readJoyAxis`. `pos` is first the sample of `axis_pin` and then overwritten
by the projected position. The quotient, the product and the sum are `float` operations,
each rounded to binary32; the integer operands convert to `float` exactly. -/
def readJoyAxis (analogRead : Nat → Nat) (axis_pin lower_edge upper_edge axis_max : Nat) :
    Option Nat :=
  let pos := toWord (analogRead axis_pin)
  if pos < lower_edge then
    (floatDiv (pos : ℚ) (lower_edge : ℚ)).bind fun pos_norm =>
      floatToWord (floatMul pos_norm ((axis_max / 2 : Nat) : ℚ))
  else if pos > upper_edge then
    (floatDiv ((toWord ((pos : Int) - (upper_edge : Int)) : Nat) : ℚ)
        ((toWord ((axis_max : Int) - (upper_edge : Int)) : Nat) : ℚ)).bind fun pos_norm =>
      floatToWord
        (floatAdd ((axis_max / 2 : Nat) : ℚ) (floatMul pos_norm ((axis_max / 2 : Nat) : ℚ)))
  else
    some (axis_max / 2)

/-- Method `Joy::readJoyAxisAsByte`. The `word` result of `readJoyAxis` is passed to `castToByte`
as an `int`. -/
def readJoyAxisAsByte (j : Joy) (analogRead : Nat → Nat) (axis : Nat) : Option Nat :=
  if axis = X_AXIS then
    (readJoyAxis analogRead j.X_PIN (x_lower_edge j) (x_upper_edge j) XY_MAX_IN).map
      fun w => castToByte (wordToInt w)
  else if axis = Y_AXIS then
    (readJoyAxis analogRead j.Y_PIN (y_lower_edge j) (y_upper_edge j) XY_MAX_IN).map
      fun w => castToByte (wordToInt w)
  else
    some 0


/-! ## Reference forms used by the statements -/

/-- Closed form of the value `readJoyAxis` computes from an in-range sample `pos`: the
binary32 roundings of the quotient, the product and the sum, then the truncation. -/
def projF32 (pos lower_edge upper_edge axis_max : Nat) : Nat :=
  if pos < lower_edge then
    ⌊roundF32 (roundF32 ((pos : ℚ) / (lower_edge : ℚ)) * ((axis_max / 2 : Nat) : ℚ))⌋.toNat
  else if pos > upper_edge then
    ⌊roundF32 (((axis_max / 2 : Nat) : ℚ) +
      roundF32 (roundF32 (((pos - upper_edge : Nat) : ℚ) / ((axis_max - upper_edge : Nat) : ℚ)) *
        ((axis_max / 2 : Nat) : ℚ)))⌋.toNat
  else axis_max / 2

/-- Closed form over `Nat` of the piecewise rule with exact fractions: integer division in
place of the truncated exact quotient. -/
def projNat (pos lower_edge upper_edge axis_max : Nat) : Nat :=
  if pos < lower_edge then pos * (axis_max / 2) / lower_edge
  else if pos > upper_edge then
    axis_max / 2 + (pos - upper_edge) * (axis_max / 2) / (axis_max - upper_edge)
  else axis_max / 2

/-- The piecewise projection rule in the words of the specification: exact fractions, the
integer half `rawMax / 2`, one truncation at the end. -/
def projectSpec (rawSample lowerEdge upperEdge rawMax : Nat) : Nat :=
  if rawSample < lowerEdge then
    (truncQ ((rawSample : ℚ) / (lowerEdge : ℚ) * ((rawMax / 2 : Nat) : ℚ))).toNat
  else if rawSample > upperEdge then
    rawMax / 2 +
      (truncQ (((rawSample : ℚ) - (upperEdge : ℚ)) / ((rawMax : ℚ) - (upperEdge : ℚ)) *
        ((rawMax / 2 : Nat) : ℚ))).toNat
  else rawMax / 2

/-- The channel that delivers `K1, K2, K1, K2, …`. -/
def alternating (K1 K2 : Nat) (k : Nat) : Nat := if k % 2 = 0 then K1 else K2

/-- The channel that delivers `1, 1, 2, 2, 3, 3, …`. -/
def pairedRamp (k : Nat) : Nat := k / 2 + 1

/-- The byte compression in the words of the specification:
`round(normalizedSample × outMax / rawMax)`, clamped to `[0, outMax]`. -/
def compressSpec (normalizedSample rawMax outMax : Nat) : Nat :=
  (max 0 (min (outMax : Int)
    (round ((normalizedSample : ℚ) * (outMax : ℚ) / (rawMax : ℚ))))).toNat

/-- Iteration `n` of the calibration loop completes ten consecutive iterations whose two
samples are equal to each other (iteration `i + 1` takes the samples `2 * i` and
`2 * i + 1`). -/
def tenPairsAgree (analogRead : Nat → Nat) (n : Nat) : Prop :=
  10 ≤ n ∧ ∀ i, n - 10 ≤ i → i < n → analogRead (2 * i + 1) = analogRead (2 * i)

instance tenPairsAgree_decidable (analogRead : Nat → Nat) (n : Nat) :
    Decidable (tenPairsAgree analogRead n) := by
  unfold tenPairsAgree
  infer_instance

/-! ## Binary32 rounding lemmas -/

theorem roundHalfEven_eq_of_near (y : ℚ) (m : Int) (h : |y - (m : ℚ)| < 1 / 2) :
    roundHalfEven y = m := by
  have h0 := Int.fract_nonneg y
  have h1 := Int.fract_lt_one y
  have hy := Int.floor_add_fract y
  rw [abs_lt] at h
  obtain ⟨ha, hb⟩ := h
  unfold roundHalfEven
  split_ifs with c1 c2 c3
  · have e1 : ((⌊y⌋ - m : Int) : ℚ) < 1 := by push_cast; linarith
    have e2 : (-1 : ℚ) < ((⌊y⌋ - m : Int) : ℚ) := by push_cast; linarith
    have e3 : ⌊y⌋ - m < 1 := by exact_mod_cast e1
    have e4 : -1 < ⌊y⌋ - m := by exact_mod_cast e2
    omega
  · have e1 : ((⌊y⌋ - m : Int) : ℚ) < 0 := by push_cast; linarith
    have e2 : (-2 : ℚ) < ((⌊y⌋ - m : Int) : ℚ) := by push_cast; linarith
    have e3 : ⌊y⌋ - m < 0 := by exact_mod_cast e1
    have e4 : -2 < ⌊y⌋ - m := by exact_mod_cast e2
    omega
  · exfalso
    have e1 : ((⌊y⌋ - m : Int) : ℚ) < 0 := by push_cast; linarith
    have e2 : (-1 : ℚ) < ((⌊y⌋ - m : Int) : ℚ) := by push_cast; linarith
    have e3 : ⌊y⌋ - m < 0 := by exact_mod_cast e1
    have e4 : -1 < ⌊y⌋ - m := by exact_mod_cast e2
    omega
  · exfalso
    have e1 : ((⌊y⌋ - m : Int) : ℚ) < 0 := by push_cast; linarith
    have e2 : (-1 : ℚ) < ((⌊y⌋ - m : Int) : ℚ) := by push_cast; linarith
    have e3 : ⌊y⌋ - m < 0 := by exact_mod_cast e1
    have e4 : -1 < ⌊y⌋ - m := by exact_mod_cast e2
    omega

theorem roundHalfEven_intCast (m : Int) : roundHalfEven (m : ℚ) = m :=
  roundHalfEven_eq_of_near _ m (by simp)

theorem roundHalfEven_floor_le (y : ℚ) : ⌊y⌋ ≤ roundHalfEven y := by
  unfold roundHalfEven
  split_ifs <;> omega

theorem roundHalfEven_le_floor_succ (y : ℚ) : roundHalfEven y ≤ ⌊y⌋ + 1 := by
  unfold roundHalfEven
  split_ifs <;> omega

theorem roundHalfEven_mono (y z : ℚ) (h : y ≤ z) : roundHalfEven y ≤ roundHalfEven z := by
  have hf : ⌊y⌋ ≤ ⌊z⌋ := Int.floor_le_floor h
  rcases hf.lt_or_eq with hlt | heq
  · have h1 := roundHalfEven_le_floor_succ y
    have h2 := roundHalfEven_floor_le z
    omega
  · have hfr : Int.fract y ≤ Int.fract z := by
      rw [← Int.self_sub_floor, ← Int.self_sub_floor, heq]
      linarith
    unfold roundHalfEven
    rw [heq]
    split_ifs <;> first | omega | (exfalso; linarith)

theorem roundHalfEven_abs_sub_le (y : ℚ) : |(roundHalfEven y : ℚ) - y| ≤ 1 / 2 := by
  have h0 := Int.fract_nonneg y
  have h1 := Int.fract_lt_one y
  have hy := Int.floor_add_fract y
  rw [abs_le]
  unfold roundHalfEven
  split_ifs with c1 c2 c3
  · constructor <;> linarith
  · push_cast; constructor <;> linarith
  · constructor <;> linarith
  · push_cast; constructor <;> linarith


theorem two_zpow_pos (z : Int) : (0 : ℚ) < (2 : ℚ) ^ z := zpow_pos (by norm_num) z

theorem ulp_binade (x : ℚ) (hx : 0 < x) :
    (2 : ℚ) ^ (23 : ℕ) * (2 : ℚ) ^ ulpExp x ≤ x ∧ x < (2 : ℚ) ^ (24 : ℕ) * (2 : ℚ) ^ ulpExp x := by
  have h1 := Int.zpow_log_le_self (R := ℚ) (b := 2) (r := x) (by norm_num) hx
  have h2 := Int.lt_zpow_succ_log_self (R := ℚ) (b := 2) (by norm_num) x
  simp only [Nat.cast_ofNat] at h1 h2
  have e1 : Int.log 2 x = ulpExp x + 23 := by unfold ulpExp; rw [abs_of_pos hx]; ring
  rw [e1] at h1 h2
  have e2 : (2 : ℚ) ^ (ulpExp x + 23) = (2 : ℚ) ^ (23 : ℕ) * (2 : ℚ) ^ ulpExp x := by
    rw [zpow_add₀ (by norm_num), mul_comm]; norm_cast
  have e3 : (2 : ℚ) ^ (ulpExp x + 23 + 1) = (2 : ℚ) ^ (24 : ℕ) * (2 : ℚ) ^ ulpExp x := by
    rw [show ulpExp x + 23 + 1 = ulpExp x + 24 by ring, zpow_add₀ (by norm_num), mul_comm]
    norm_cast
  rw [e2] at h1
  rw [e3] at h2
  exact ⟨h1, h2⟩

theorem ulpExp_eq_of (x : ℚ) (e : Int) (h1 : (2 : ℚ) ^ (23 : ℕ) * (2 : ℚ) ^ e ≤ x)
    (h2 : x < (2 : ℚ) ^ (24 : ℕ) * (2 : ℚ) ^ e) : ulpExp x = e := by
  have hx : 0 < x := lt_of_lt_of_le (mul_pos (by norm_num) (two_zpow_pos e)) h1
  have e2 : (2 : ℚ) ^ (e + 23) = (2 : ℚ) ^ (23 : ℕ) * (2 : ℚ) ^ e := by
    rw [zpow_add₀ (by norm_num), mul_comm]; norm_cast
  have e3 : (2 : ℚ) ^ (e + 24) = (2 : ℚ) ^ (24 : ℕ) * (2 : ℚ) ^ e := by
    rw [zpow_add₀ (by norm_num), mul_comm]; norm_cast
  rw [← e2] at h1
  rw [← e3] at h2
  have a1 : e + 23 ≤ Int.log 2 x := by
    rw [← Int.zpow_le_iff_le_log (R := ℚ) (b := 2) (by norm_num) hx]
    simpa using h1
  have a2 : Int.log 2 x < e + 24 := by
    rw [← Int.lt_zpow_iff_log_lt (R := ℚ) (b := 2) (by norm_num) hx]
    simpa using h2
  unfold ulpExp
  rw [abs_of_pos hx]
  omega

theorem roundF32_zero : roundF32 0 = 0 := by
  unfold roundF32
  rw [if_pos rfl]

theorem roundF32_of_pos (x : ℚ) (hx : 0 < x) :
    roundF32 x = (roundHalfEven (x / (2 : ℚ) ^ ulpExp x) : ℚ) * (2 : ℚ) ^ ulpExp x := by
  unfold roundF32
  rw [if_neg hx.ne']

/-- The scaled significand of a positive value lies in `[2^23, 2^24]` after rounding. -/
theorem roundHalfEven_scaled_bounds (x : ℚ) (hx : 0 < x) :
    (2 : Int) ^ (23 : ℕ) ≤ roundHalfEven (x / (2 : ℚ) ^ ulpExp x) ∧
      roundHalfEven (x / (2 : ℚ) ^ ulpExp x) ≤ (2 : Int) ^ (24 : ℕ) := by
  obtain ⟨h1, h2⟩ := ulp_binade x hx
  have hp := two_zpow_pos (ulpExp x)
  have a1 : (((2 : Int) ^ (23 : ℕ) : Int) : ℚ) ≤ x / (2 : ℚ) ^ ulpExp x := by
    rw [le_div_iff₀ hp]; push_cast; exact h1
  have a2 : x / (2 : ℚ) ^ ulpExp x ≤ (((2 : Int) ^ (24 : ℕ) : Int) : ℚ) := by
    rw [div_le_iff₀ hp]; push_cast; exact h2.le
  have b1 := roundHalfEven_mono _ _ a1
  have b2 := roundHalfEven_mono _ _ a2
  rw [roundHalfEven_intCast] at b1 b2
  exact ⟨b1, b2⟩

theorem roundF32_eq_of_near (x : ℚ) (e m : Int)
    (h1 : (2 : ℚ) ^ (23 : ℕ) * (2 : ℚ) ^ e ≤ x) (h2 : x < (2 : ℚ) ^ (24 : ℕ) * (2 : ℚ) ^ e)
    (hn : |x - (m : ℚ) * (2 : ℚ) ^ e| < (2 : ℚ) ^ e / 2) :
    roundF32 x = (m : ℚ) * (2 : ℚ) ^ e := by
  have hx : 0 < x := lt_of_lt_of_le (mul_pos (by norm_num) (two_zpow_pos e)) h1
  have he := ulpExp_eq_of x e h1 h2
  have hp := two_zpow_pos e
  rw [roundF32_of_pos x hx, he]
  have hnear : |x / (2 : ℚ) ^ e - (m : ℚ)| < 1 / 2 := by
    have e1 : x / (2 : ℚ) ^ e - (m : ℚ) = (x - (m : ℚ) * (2 : ℚ) ^ e) / (2 : ℚ) ^ e := by
      field_simp
      ring
    rw [e1, abs_div, abs_of_pos hp, div_lt_iff₀ hp]
    linarith
  rw [roundHalfEven_eq_of_near _ m hnear]

theorem roundF32_nonneg (x : ℚ) (hx : 0 ≤ x) : 0 ≤ roundF32 x := by
  rcases hx.eq_or_lt with h0 | hpos
  · rw [← h0, roundF32_zero]
  · rw [roundF32_of_pos x hpos]
    have hb := (roundHalfEven_scaled_bounds x hpos).1
    have : (0 : ℚ) ≤ (roundHalfEven (x / (2 : ℚ) ^ ulpExp x) : ℚ) := by
      have : (0 : Int) ≤ roundHalfEven (x / (2 : ℚ) ^ ulpExp x) := by
        have : (0 : Int) ≤ (2 : Int) ^ (23 : ℕ) := by norm_num
        omega
      exact_mod_cast this
    exact mul_nonneg this (two_zpow_pos _).le

theorem roundF32_mono (x y : ℚ) (hx : 0 ≤ x) (h : x ≤ y) : roundF32 x ≤ roundF32 y := by
  rcases hx.eq_or_lt with h0 | hpos
  · rw [← h0, roundF32_zero]
    exact roundF32_nonneg y (hx.trans h)
  · have hy : 0 < y := lt_of_lt_of_le hpos h
    have hle : ulpExp x ≤ ulpExp y := by
      unfold ulpExp
      rw [abs_of_pos hpos, abs_of_pos hy]
      have := Int.log_mono_right (R := ℚ) (b := 2) hpos h
      omega
    rw [roundF32_of_pos x hpos, roundF32_of_pos y hy]
    rcases hle.lt_or_eq with hlt | heq
    · have bx := (roundHalfEven_scaled_bounds x hpos).2
      have by1 := (roundHalfEven_scaled_bounds y hy).1
      have bxq : (roundHalfEven (x / (2 : ℚ) ^ ulpExp x) : ℚ) ≤ (2 : ℚ) ^ (24 : ℕ) := by
        exact_mod_cast bx
      have byq : (2 : ℚ) ^ (23 : ℕ) ≤ (roundHalfEven (y / (2 : ℚ) ^ ulpExp y) : ℚ) := by
        exact_mod_cast by1
      have hpx := two_zpow_pos (ulpExp x)
      have hpy := two_zpow_pos (ulpExp y)
      have hstep : (2 : ℚ) ^ (ulpExp x + 1) ≤ (2 : ℚ) ^ ulpExp y :=
        zpow_le_zpow_right₀ (by norm_num) (by omega)
      have e1 : (2 : ℚ) ^ (ulpExp x + 1) = 2 * (2 : ℚ) ^ ulpExp x := by
        rw [zpow_add₀ (by norm_num), zpow_one, mul_comm]
      rw [e1] at hstep
      calc (roundHalfEven (x / (2 : ℚ) ^ ulpExp x) : ℚ) * (2 : ℚ) ^ ulpExp x
          ≤ (2 : ℚ) ^ (24 : ℕ) * (2 : ℚ) ^ ulpExp x := by
            exact mul_le_mul_of_nonneg_right bxq hpx.le
        _ = (2 : ℚ) ^ (23 : ℕ) * (2 * (2 : ℚ) ^ ulpExp x) := by ring
        _ ≤ (2 : ℚ) ^ (23 : ℕ) * (2 : ℚ) ^ ulpExp y := by
            exact mul_le_mul_of_nonneg_left hstep (by norm_num)
        _ ≤ (roundHalfEven (y / (2 : ℚ) ^ ulpExp y) : ℚ) * (2 : ℚ) ^ ulpExp y := by
            exact mul_le_mul_of_nonneg_right byq hpy.le
    · rw [heq]
      have hpy := two_zpow_pos (ulpExp y)
      have hdiv : x / (2 : ℚ) ^ ulpExp y ≤ y / (2 : ℚ) ^ ulpExp y :=
        div_le_div_of_nonneg_right h hpy.le
      have := roundHalfEven_mono _ _ hdiv
      have hq : (roundHalfEven (x / (2 : ℚ) ^ ulpExp y) : ℚ) ≤
          (roundHalfEven (y / (2 : ℚ) ^ ulpExp y) : ℚ) := by exact_mod_cast this
      exact mul_le_mul_of_nonneg_right hq hpy.le

/-- A value `c * 2^z` with `c < 2^24` is a binary32 value: rounding leaves it unchanged. -/
theorem roundF32_natCast_mul_zpow (c : ℕ) (z : Int) (hc : c < 2 ^ 24) :
    roundF32 ((c : ℚ) * (2 : ℚ) ^ z) = (c : ℚ) * (2 : ℚ) ^ z := by
  rcases Nat.eq_zero_or_pos c with h0 | hpos
  · rw [h0]; simp [roundF32_zero]
  · have hz := two_zpow_pos z
    have hx : 0 < (c : ℚ) * (2 : ℚ) ^ z := mul_pos (by exact_mod_cast hpos) hz
    obtain ⟨h1, h2⟩ := ulp_binade _ hx
    have hcq : (c : ℚ) < (2 : ℚ) ^ (24 : ℕ) := by exact_mod_cast hc
    have hez : ulpExp ((c : ℚ) * (2 : ℚ) ^ z) ≤ z := by
      by_contra hcon
      push_neg at hcon
      have hstep : (2 : ℚ) ^ (z + 1) ≤ (2 : ℚ) ^ ulpExp ((c : ℚ) * (2 : ℚ) ^ z) :=
        zpow_le_zpow_right₀ (by norm_num) (by omega)
      have e1 : (2 : ℚ) ^ (z + 1) = 2 * (2 : ℚ) ^ z := by
        rw [zpow_add₀ (by norm_num), zpow_one, mul_comm]
      rw [e1] at hstep
      have : (c : ℚ) * (2 : ℚ) ^ z < (2 : ℚ) ^ (24 : ℕ) * (2 : ℚ) ^ z :=
        mul_lt_mul_of_pos_right hcq hz
      nlinarith
    obtain ⟨d, hd⟩ := Int.eq_ofNat_of_zero_le (sub_nonneg.mpr hez)
    have hzd : z = ulpExp ((c : ℚ) * (2 : ℚ) ^ z) + (d : Int) := by omega
    have hpe := two_zpow_pos (ulpExp ((c : ℚ) * (2 : ℚ) ^ z))
    have hscaled : (c : ℚ) * (2 : ℚ) ^ z / (2 : ℚ) ^ ulpExp ((c : ℚ) * (2 : ℚ) ^ z) =
        (((c * 2 ^ d : ℕ) : Int) : ℚ) := by
      rw [div_eq_iff hpe.ne']
      nth_rewrite 1 [hzd]
      rw [zpow_add₀ (by norm_num), zpow_natCast]
      push_cast
      ring
    rw [roundF32_of_pos _ hx, hscaled, roundHalfEven_intCast, ← hscaled]
    field_simp

theorem roundF32_natCast (c : ℕ) (hc : c < 2 ^ 24) : roundF32 (c : ℚ) = (c : ℚ) := by
  have := roundF32_natCast_mul_zpow c 0 hc
  simpa using this

/-- Relative error of the rounding: at most `2^-24`. -/
theorem roundF32_abs_sub_le (x : ℚ) (hx : 0 ≤ x) :
    |roundF32 x - x| ≤ x / (2 : ℚ) ^ (24 : ℕ) := by
  rcases hx.eq_or_lt with h0 | hpos
  · rw [← h0, roundF32_zero]; simp
  · obtain ⟨h1, -⟩ := ulp_binade x hpos
    have hp := two_zpow_pos (ulpExp x)
    have herr := roundHalfEven_abs_sub_le (x / (2 : ℚ) ^ ulpExp x)
    rw [roundF32_of_pos x hpos]
    have e1 : (roundHalfEven (x / (2 : ℚ) ^ ulpExp x) : ℚ) * (2 : ℚ) ^ ulpExp x - x =
        ((roundHalfEven (x / (2 : ℚ) ^ ulpExp x) : ℚ) - x / (2 : ℚ) ^ ulpExp x) *
          (2 : ℚ) ^ ulpExp x := by
      field_simp
    rw [e1, abs_mul, abs_of_pos hp]
    have h3 : |(roundHalfEven (x / (2 : ℚ) ^ ulpExp x) : ℚ) - x / (2 : ℚ) ^ ulpExp x| *
        (2 : ℚ) ^ ulpExp x ≤ 1 / 2 * (2 : ℚ) ^ ulpExp x :=
      mul_le_mul_of_nonneg_right herr hp.le
    rw [le_div_iff₀ (by norm_num)]
    nlinarith


/-! ## The quotient `k / 511` times 511 -/

/-- Binade-wise core of the integer case: with `N = k * S` the scaled numerator and
`2^e1 = 1 / S` the unit in the last place of `k / 511`, the product
`roundF32 (k / 511) * 511` rounds back to `k`. -/
theorem roundF32_div_mul_511_core (k N S T : ℕ) (e1 : Int)
    (hN : N = k * S) (hT : S = 512 * T) (hS : (S : ℚ) * (2 : ℚ) ^ e1 = 1)
    (h1 : 4294967296 ≤ N) (h2 : N < 8573157376) (h3 : N = 4294967296 ∨ 4294967551 ≤ N) :
    roundF32 (roundF32 ((k : ℚ) / 511) * 511) = (k : ℚ) := by
  have hu := two_zpow_pos e1
  have hk : (k : ℚ) = (N : ℚ) * (2 : ℚ) ^ e1 := by
    rw [hN]; push_cast; rw [mul_assoc, hS, mul_one]
  obtain ⟨m, hm⟩ : ∃ m : ℕ, m = (N + 255) / 511 := ⟨_, rfl⟩
  have hm1 : 511 * m ≤ N + 255 := by rw [hm]; exact Nat.mul_div_le _ _
  have hm2 : N + 255 < 511 * m + 511 := by
    have := Nat.lt_mul_div_succ (N + 255) (by norm_num : 0 < 511)
    rw [← hm] at this
    omega
  have hd1 : (511 : ℚ) * (m : ℚ) ≤ (N : ℚ) + 255 := by exact_mod_cast hm1
  have hm3 : N ≤ 511 * m + 255 := by omega
  have hd2 : (N : ℚ) ≤ (511 : ℚ) * (m : ℚ) + 255 := by exact_mod_cast hm3
  have hN1 : (4294967296 : ℚ) ≤ (N : ℚ) := by exact_mod_cast h1
  have hN2 : (N : ℚ) < 8573157376 := by exact_mod_cast h2
  have A1 := mul_le_mul_of_nonneg_right hd1 hu.le
  have A2 := mul_le_mul_of_nonneg_right hd2 hu.le
  have A3 := mul_le_mul_of_nonneg_right hN1 hu.le
  have A4 := mul_lt_mul_of_pos_right hN2 hu
  have p23 : (2 : ℚ) ^ (23 : ℕ) = 8388608 := by norm_num
  have p24 : (2 : ℚ) ^ (24 : ℕ) = 16777216 := by norm_num
  -- first rounding: the quotient
  have hq : roundF32 ((k : ℚ) / 511) = (m : ℚ) * (2 : ℚ) ^ e1 := by
    have := roundF32_eq_of_near ((k : ℚ) / 511) e1 (m : Int)
      (by rw [hk, p23]; linarith)
      (by rw [hk, p24]; linarith)
      (by
        rw [hk, abs_lt, Int.cast_natCast]
        constructor <;> linarith)
    rw [this, Int.cast_natCast]
  rw [hq]
  have e9 : (2 : ℚ) ^ (e1 + 9) = 512 * (2 : ℚ) ^ e1 := by
    rw [zpow_add₀ (by norm_num), mul_comm]; norm_num
  have e8 : (2 : ℚ) ^ (e1 + 8) = 256 * (2 : ℚ) ^ e1 := by
    rw [zpow_add₀ (by norm_num), mul_comm]; norm_num
  by_cases hcase : 4294967296 ≤ 511 * m
  · have hc1 : (4294967296 : ℚ) ≤ (511 : ℚ) * (m : ℚ) := by exact_mod_cast hcase
    have A5 := mul_le_mul_of_nonneg_right hc1 hu.le
    have hNT : (N : ℚ) = 512 * ((k * T : ℕ) : ℚ) := by
      rw [hN, hT]; push_cast; ring
    have hNT2 : (((k * T : ℕ) : Int) : ℚ) * (512 * (2 : ℚ) ^ e1) = (N : ℚ) * (2 : ℚ) ^ e1 := by
      rw [hNT, Int.cast_natCast]; ring
    have := roundF32_eq_of_near ((m : ℚ) * (2 : ℚ) ^ e1 * 511) (e1 + 9) ((k * T : ℕ) : Int)
      (by rw [e9, p23]; linarith)
      (by rw [e9, p24]; linarith)
      (by
        rw [e9, hNT2, abs_lt]
        constructor <;> linarith)
    rw [this, e9, hNT2, hk]
  · have hNeq : N = 4294967296 := by omega
    have hmv : m = 8405024 := by omega
    have hmq : (m : ℚ) = 8405024 := by rw [hmv]; norm_num
    have hNq : (N : ℚ) = 4294967296 := by rw [hNeq]; norm_num
    have := roundF32_eq_of_near ((m : ℚ) * (2 : ℚ) ^ e1 * 511) (e1 + 8) ((16777216 : ℕ) : Int)
      (by rw [e8, p23, hmq]; linarith)
      (by rw [e8, p24, hmq]; linarith)
      (by
        rw [e8, abs_lt, hmq, Int.cast_natCast]
        push_cast
        constructor <;> linarith)
    rw [this, e8, hk, hNq, Int.cast_natCast]
    push_cast
    ring

/-- Integer case: for every `k ≤ 511` the binary32 quotient `k / 511`, multiplied by 511
in binary32, is exactly `k`. -/
theorem roundF32_div_mul_511 (k : ℕ) (hk : k ≤ 511) :
    roundF32 (roundF32 ((k : ℚ) / 511) * 511) = (k : ℚ) := by
  have hcases : k = 0 ∨ k = 511 ∨ k = 1 ∨ (2 ≤ k ∧ k < 4) ∨ (4 ≤ k ∧ k < 8) ∨
      (8 ≤ k ∧ k < 16) ∨ (16 ≤ k ∧ k < 32) ∨ (32 ≤ k ∧ k < 64) ∨ (64 ≤ k ∧ k < 128) ∨
      (128 ≤ k ∧ k < 256) ∨ (256 ≤ k ∧ k < 511) := by omega
  rcases hcases with h | h | h | h | h | h | h | h | h | h | h
  · rw [h]; simp [roundF32_zero]
  · rw [h]
    have e1 : ((511 : ℕ) : ℚ) / 511 = ((1 : ℕ) : ℚ) := by norm_num
    rw [e1, roundF32_natCast 1 (by norm_num)]
    have e2 : ((1 : ℕ) : ℚ) * 511 = ((511 : ℕ) : ℚ) := by norm_num
    rw [e2, roundF32_natCast 511 (by norm_num)]
  · exact roundF32_div_mul_511_core k (k * 4294967296) 4294967296 8388608 (-32) rfl
      (by norm_num) (by norm_num) (by omega) (by omega) (by omega)
  · exact roundF32_div_mul_511_core k (k * 2147483648) 2147483648 4194304 (-31) rfl
      (by norm_num) (by norm_num) (by omega) (by omega) (by omega)
  · exact roundF32_div_mul_511_core k (k * 1073741824) 1073741824 2097152 (-30) rfl
      (by norm_num) (by norm_num) (by omega) (by omega) (by omega)
  · exact roundF32_div_mul_511_core k (k * 536870912) 536870912 1048576 (-29) rfl
      (by norm_num) (by norm_num) (by omega) (by omega) (by omega)
  · exact roundF32_div_mul_511_core k (k * 268435456) 268435456 524288 (-28) rfl
      (by norm_num) (by norm_num) (by omega) (by omega) (by omega)
  · exact roundF32_div_mul_511_core k (k * 134217728) 134217728 262144 (-27) rfl
      (by norm_num) (by norm_num) (by omega) (by omega) (by omega)
  · exact roundF32_div_mul_511_core k (k * 67108864) 67108864 131072 (-26) rfl
      (by norm_num) (by norm_num) (by omega) (by omega) (by omega)
  · exact roundF32_div_mul_511_core k (k * 33554432) 33554432 65536 (-25) rfl
      (by norm_num) (by norm_num) (by omega) (by omega) (by omega)
  · exact roundF32_div_mul_511_core k (k * 16777216) 16777216 32768 (-24) rfl
      (by norm_num) (by norm_num) (by omega) (by omega) (by omega)


/-! ## Error of the rounded quotient-times-half -/

/-- Two roundings (quotient, product) move the product by at most `3 * 2^-24` of itself. -/
theorem roundF32_mul_err (t : ℚ) (h : ℕ) (ht : 0 ≤ t) :
    0 ≤ roundF32 (roundF32 t * (h : ℚ)) ∧
      |roundF32 (roundF32 t * (h : ℚ)) - t * (h : ℚ)| ≤ t * (h : ℚ) * (3 / 16777216) := by
  have hh : (0 : ℚ) ≤ (h : ℚ) := Nat.cast_nonneg h
  have hq0 := roundF32_nonneg t ht
  have hq := roundF32_abs_sub_le t ht
  have hy0 : 0 ≤ roundF32 t * (h : ℚ) := mul_nonneg hq0 hh
  have hp := roundF32_abs_sub_le _ hy0
  have hp0 := roundF32_nonneg _ hy0
  have p24 : (2 : ℚ) ^ (24 : ℕ) = 16777216 := by norm_num
  rw [p24] at hq hp
  rw [abs_le] at hq hp
  have hw : 0 ≤ t * (h : ℚ) := mul_nonneg ht hh
  have B1 := mul_le_mul_of_nonneg_right hq.1 hh
  have B2 := mul_le_mul_of_nonneg_right hq.2 hh
  refine ⟨hp0, ?_⟩
  rw [abs_le]
  constructor <;> nlinarith

theorem floor_eq_natCast_of (v : ℚ) (k : ℕ) (h1 : (k : ℚ) ≤ v) (h2 : v < (k : ℚ) + 1) :
    ⌊v⌋ = (k : Int) := by
  rw [Int.floor_eq_iff]
  exact ⟨by exact_mod_cast h1, by exact_mod_cast h2⟩

/-- A quotient of naturals that is not an integer keeps the distance `1 / b` from the
integers around it. -/
theorem div_gap (n b : ℕ) (hb : 0 < b) (hr : n % b ≠ 0) :
    ((n / b : ℕ) : ℚ) + 1 / (b : ℚ) ≤ (n : ℚ) / (b : ℚ) ∧
      (n : ℚ) / (b : ℚ) ≤ ((n / b : ℕ) : ℚ) + 1 - 1 / (b : ℚ) := by
  have hbq : (0 : ℚ) < (b : ℚ) := by exact_mod_cast hb
  have hdm := Nat.div_add_mod n b
  have hlt := Nat.mod_lt n hb
  have h1 : b * (n / b) + 1 ≤ n := by omega
  have h2 : n + 1 ≤ b * (n / b) + b := by omega
  have h1q : (b : ℚ) * ((n / b : ℕ) : ℚ) + 1 ≤ (n : ℚ) := by exact_mod_cast h1
  have h2q : (n : ℚ) + 1 ≤ (b : ℚ) * ((n / b : ℕ) : ℚ) + (b : ℚ) := by exact_mod_cast h2
  constructor
  · rw [le_div_iff₀ hbq]
    have : (((n / b : ℕ) : ℚ) + 1 / (b : ℚ)) * (b : ℚ) = (b : ℚ) * ((n / b : ℕ) : ℚ) + 1 := by
      field_simp; ring
    rw [this]; exact h1q
  · rw [div_le_iff₀ hbq]
    have : (((n / b : ℕ) : ℚ) + 1 - 1 / (b : ℚ)) * (b : ℚ) =
        (b : ℚ) * ((n / b : ℕ) : ℚ) + (b : ℚ) - 1 := by
      field_simp; ring
    rw [this]; linarith


/-! ## The projection with half-range 511 is exact -/

theorem div_eq_div_511 (a b : ℕ) (hb : 0 < b) (hr : a * 511 % b = 0) :
    (a : ℚ) / (b : ℚ) = ((a * 511 / b : ℕ) : ℚ) / 511 := by
  have hbq : (b : ℚ) ≠ 0 := by exact_mod_cast hb.ne'
  have hdm := Nat.div_add_mod (a * 511) b
  rw [hr, Nat.add_zero] at hdm
  have hq : (b : ℚ) * ((a * 511 / b : ℕ) : ℚ) = (a : ℚ) * 511 := by exact_mod_cast hdm
  field_simp
  linarith

theorem floor_proj_low_511 (a b : ℕ) (hab : a < b) (hb : b ≤ 1022) :
    0 ≤ roundF32 (roundF32 ((a : ℚ) / (b : ℚ)) * ((511 : ℕ) : ℚ)) ∧
      ⌊roundF32 (roundF32 ((a : ℚ) / (b : ℚ)) * ((511 : ℕ) : ℚ))⌋ =
        ((a * 511 / b : ℕ) : Int) := by
  have hb0 : 0 < b := by omega
  have hbq : (0 : ℚ) < (b : ℚ) := by exact_mod_cast hb0
  have ht : (0 : ℚ) ≤ (a : ℚ) / (b : ℚ) := by positivity
  obtain ⟨hp0, herr⟩ := roundF32_mul_err ((a : ℚ) / (b : ℚ)) 511 ht
  refine ⟨hp0, ?_⟩
  by_cases hr : a * 511 % b = 0
  · have hk : a * 511 / b ≤ 511 := by
      apply Nat.div_le_of_le_mul
      have : a * 511 ≤ b * 511 := Nat.mul_le_mul_right _ hab.le
      exact this
    rw [div_eq_div_511 a b hb0 hr]
    have := roundF32_div_mul_511 (a * 511 / b) hk
    have e511 : ((511 : ℕ) : ℚ) = 511 := by norm_num
    rw [e511, this, Int.floor_natCast]
  · obtain ⟨g1, g2⟩ := div_gap (a * 511) b hb0 hr
    have hw : (a : ℚ) / (b : ℚ) * ((511 : ℕ) : ℚ) = ((a * 511 : ℕ) : ℚ) / (b : ℚ) := by
      push_cast; ring
    rw [hw] at herr
    have hw1 : ((a * 511 : ℕ) : ℚ) / (b : ℚ) ≤ 511 := by
      rw [div_le_iff₀ hbq]
      have : a * 511 ≤ 511 * b := by
        have := Nat.mul_le_mul_right 511 hab.le
        omega
      exact_mod_cast this
    have hw0 : (0 : ℚ) ≤ ((a * 511 : ℕ) : ℚ) / (b : ℚ) := by positivity
    have hgap : (1 : ℚ) / 1022 ≤ 1 / (b : ℚ) := by
      apply one_div_le_one_div_of_le hbq
      exact_mod_cast hb
    rw [abs_le] at herr
    apply floor_eq_natCast_of
    · linarith
    · linarith

theorem floor_proj_high_511 (a b : ℕ) (hab : a ≤ b) (hb0 : 0 < b) (hb : b ≤ 1022) :
    0 ≤ roundF32 (((511 : ℕ) : ℚ) +
        roundF32 (roundF32 ((a : ℚ) / (b : ℚ)) * ((511 : ℕ) : ℚ))) ∧
      ⌊roundF32 (((511 : ℕ) : ℚ) +
        roundF32 (roundF32 ((a : ℚ) / (b : ℚ)) * ((511 : ℕ) : ℚ)))⌋ =
        ((511 + a * 511 / b : ℕ) : Int) := by
  have hbq : (0 : ℚ) < (b : ℚ) := by exact_mod_cast hb0
  have ht : (0 : ℚ) ≤ (a : ℚ) / (b : ℚ) := by positivity
  obtain ⟨hp0, herr⟩ := roundF32_mul_err ((a : ℚ) / (b : ℚ)) 511 ht
  have hs0 : (0 : ℚ) ≤ ((511 : ℕ) : ℚ) +
      roundF32 (roundF32 ((a : ℚ) / (b : ℚ)) * ((511 : ℕ) : ℚ)) := by positivity
  refine ⟨roundF32_nonneg _ hs0, ?_⟩
  by_cases hr : a * 511 % b = 0
  · have hk : a * 511 / b ≤ 511 := by
      apply Nat.div_le_of_le_mul
      have : a * 511 ≤ b * 511 := Nat.mul_le_mul_right _ hab
      exact this
    rw [div_eq_div_511 a b hb0 hr]
    have := roundF32_div_mul_511 (a * 511 / b) hk
    have e511 : ((511 : ℕ) : ℚ) = 511 := by norm_num
    have esum : (511 : ℚ) + ((a * 511 / b : ℕ) : ℚ) = ((511 + a * 511 / b : ℕ) : ℚ) := by
      push_cast; ring
    rw [e511, this, esum, roundF32_natCast _ (by omega), Int.floor_natCast]
  · obtain ⟨g1, g2⟩ := div_gap (a * 511) b hb0 hr
    have hw : (a : ℚ) / (b : ℚ) * ((511 : ℕ) : ℚ) = ((a * 511 : ℕ) : ℚ) / (b : ℚ) := by
      push_cast; ring
    rw [hw] at herr
    have hw1 : ((a * 511 : ℕ) : ℚ) / (b : ℚ) ≤ 511 := by
      rw [div_le_iff₀ hbq]
      have : a * 511 ≤ 511 * b := by
        have := Nat.mul_le_mul_right 511 hab
        omega
      exact_mod_cast this
    have hw0 : (0 : ℚ) ≤ ((a * 511 : ℕ) : ℚ) / (b : ℚ) := by positivity
    have hgap : (1 : ℚ) / 1022 ≤ 1 / (b : ℚ) := by
      apply one_div_le_one_div_of_le hbq
      exact_mod_cast hb
    rw [abs_le] at herr
    have hserr := roundF32_abs_sub_le _ hs0
    have p24 : (2 : ℚ) ^ (24 : ℕ) = 16777216 := by norm_num
    rw [p24, abs_le] at hserr
    have e511 : ((511 : ℕ) : ℚ) = 511 := by norm_num
    rw [e511] at hserr hs0 herr ⊢
    apply floor_eq_natCast_of
    · push_cast; linarith
    · push_cast; linarith


/-! ## Machine-integer and projection lemmas -/

theorem toWord_natCast (n : Nat) (h : n < 65536) : toWord (n : Int) = n := by
  unfold toWord; omega

theorem toWord_sub (a b : Nat) (hb : b ≤ a) (ha : a < 65536) :
    toWord ((a : Int) - (b : Int)) = a - b := by
  unfold toWord; omega

theorem toWord_add (a b : Nat) (h : a + b < 65536) :
    toWord ((a : Int) + (b : Int)) = a + b := by
  unfold toWord; omega

theorem floatToWord_of_floor (x : ℚ) (n : Nat) (h0 : 0 ≤ x) (hn : ⌊x⌋ = (n : Int))
    (hlt : n < 65536) : floatToWord x = some n := by
  have hx : x < 65536 := by
    have h1 : ⌊x⌋ < (65536 : Int) := by rw [hn]; exact_mod_cast hlt
    have h2 := Int.floor_lt.mp h1
    exact_mod_cast h2
  have hneg : ¬ (x ≤ -1 ∨ (65536 : ℚ) ≤ x) := by
    rintro (h | h)
    · linarith
    · linarith
  simp only [floatToWord, hneg, if_false, truncQ, h0, if_true, hn, Int.toNat_ofNat]

theorem floor_div_mul (a b h : Nat) :
    ⌊(a : ℚ) / (b : ℚ) * (h : ℚ)⌋ = ((a * h / b : Nat) : Int) := by
  have e : (a : ℚ) / (b : ℚ) * (h : ℚ) = ((a * h : Nat) : ℚ) / (b : ℚ) := by
    push_cast; ring
  rw [e, Rat.floor_natCast_div_natCast]
  norm_cast

theorem floor_add_div_mul (a b h : Nat) :
    ⌊(h : ℚ) + (a : ℚ) / (b : ℚ) * (h : ℚ)⌋ = ((h + a * h / b : Nat) : Int) := by
  rw [Int.floor_nat_add, floor_div_mul]; push_cast; rfl

theorem div_mul_nonneg (a b h : Nat) : (0 : ℚ) ≤ (a : ℚ) / (b : ℚ) * (h : ℚ) := by
  positivity

theorem low_lt_half (pos l h : Nat) (hp : pos < l) (hh : 0 < h) : pos * h / l < h := by
  have hl : 0 < l := by omega
  rw [Nat.div_lt_iff_lt_mul hl]
  rw [Nat.mul_comm h l]
  exact Nat.mul_lt_mul_of_pos_right hp hh

theorem high_le_half (pos u M h : Nat) (hp : pos ≤ M) (hu : u < M) :
    (pos - u) * h / (M - u) ≤ h := by
  have hd : 0 < M - u := by omega
  rw [Nat.div_le_iff_le_mul_add_pred hd]
  have : (pos - u) * h ≤ (M - u) * h := Nat.mul_le_mul_right h (by omega)
  omega

theorem projNat_le (pos l u M : Nat) (hl : 0 < l) (hlu : l ≤ u) (hu : u < M)
    (hp : pos ≤ M) : projNat pos l u M ≤ M := by
  unfold projNat
  split_ifs with h1 h2
  · have : pos * (M / 2) / l ≤ M / 2 := by
      rw [Nat.div_le_iff_le_mul_add_pred hl]
      have : pos * (M / 2) ≤ l * (M / 2) := Nat.mul_le_mul_right _ (by omega)
      omega
    omega
  · have := high_le_half pos u M (M / 2) hp hu
    omega
  · omega

theorem floor_toNat_le (x : ℚ) (n : Nat) (hx : x ≤ (n : ℚ)) : ⌊x⌋.toNat ≤ n := by
  have h1 : (⌊x⌋ : ℚ) ≤ (n : ℚ) := (Int.floor_le x).trans hx
  have h2 : ⌊x⌋ ≤ (n : Int) := by exact_mod_cast h1
  omega

theorem le_floor_toNat (x : ℚ) (n : Nat) (hx : (n : ℚ) ≤ x) : n ≤ ⌊x⌋.toNat := by
  have h2 : (n : Int) ≤ ⌊x⌋ := Int.le_floor.mpr (by exact_mod_cast hx)
  omega

theorem floor_toNat_lt (x : ℚ) (n : Nat) (hn : 0 < n) (hx : x < (n : ℚ)) : ⌊x⌋.toNat < n := by
  have h1 : (⌊x⌋ : ℚ) < (n : ℚ) := lt_of_le_of_lt (Int.floor_le x) hx
  have h2 : ⌊x⌋ < (n : Int) := by exact_mod_cast h1
  omega

theorem floor_toNat_mono (x y : ℚ) (h : x ≤ y) : ⌊x⌋.toNat ≤ ⌊y⌋.toNat :=
  Int.toNat_le_toNat (Int.floor_le_floor h)

/-- The rounded quotient of `a ≤ b` lies in `[0, 1]`. -/
theorem f32_quot_bounds (a b : Nat) (hab : a ≤ b) (hb : 0 < b) :
    0 ≤ roundF32 ((a : ℚ) / (b : ℚ)) ∧ roundF32 ((a : ℚ) / (b : ℚ)) ≤ 1 := by
  have hbq : (0 : ℚ) < (b : ℚ) := by exact_mod_cast hb
  have ht : (0 : ℚ) ≤ (a : ℚ) / (b : ℚ) := by positivity
  have ht1 : (a : ℚ) / (b : ℚ) ≤ ((1 : Nat) : ℚ) := by
    rw [div_le_iff₀ hbq]
    push_cast
    rw [one_mul]
    exact_mod_cast hab
  have h1 := roundF32_mono _ _ ht ht1
  rw [roundF32_natCast 1 (by norm_num)] at h1
  exact ⟨roundF32_nonneg _ ht, by simpa using h1⟩

/-- The lower-branch value lies between 0 and the half-range. -/
theorem f32_low_bounds (a b h : Nat) (hab : a ≤ b) (hb : 0 < b) (hh : h < 2 ^ 24) :
    0 ≤ roundF32 (roundF32 ((a : ℚ) / (b : ℚ)) * (h : ℚ)) ∧
      roundF32 (roundF32 ((a : ℚ) / (b : ℚ)) * (h : ℚ)) ≤ (h : ℚ) := by
  obtain ⟨hq0, hq1⟩ := f32_quot_bounds a b hab hb
  have hhq : (0 : ℚ) ≤ (h : ℚ) := Nat.cast_nonneg h
  have hy0 : 0 ≤ roundF32 ((a : ℚ) / (b : ℚ)) * (h : ℚ) := mul_nonneg hq0 hhq
  have hy1 : roundF32 ((a : ℚ) / (b : ℚ)) * (h : ℚ) ≤ (h : ℚ) :=
    mul_le_of_le_one_left hhq hq1
  have h1 := roundF32_mono _ _ hy0 hy1
  rw [roundF32_natCast h hh] at h1
  exact ⟨roundF32_nonneg _ hy0, h1⟩

/-- The upper-branch value lies between the half-range and twice the half-range. -/
theorem f32_high_bounds (a b h : Nat) (hab : a ≤ b) (hb : 0 < b) (hh : 2 * h < 2 ^ 24) :
    (h : ℚ) ≤ roundF32 ((h : ℚ) + roundF32 (roundF32 ((a : ℚ) / (b : ℚ)) * (h : ℚ))) ∧
      roundF32 ((h : ℚ) + roundF32 (roundF32 ((a : ℚ) / (b : ℚ)) * (h : ℚ))) ≤
        ((2 * h : Nat) : ℚ) := by
  obtain ⟨hp0, hp1⟩ := f32_low_bounds a b h hab hb (by omega)
  have hhq : (0 : ℚ) ≤ (h : ℚ) := Nat.cast_nonneg h
  have h1 := roundF32_mono (h : ℚ)
    ((h : ℚ) + roundF32 (roundF32 ((a : ℚ) / (b : ℚ)) * (h : ℚ))) hhq (by linarith)
  rw [roundF32_natCast h (by omega)] at h1
  have h2 := roundF32_mono ((h : ℚ) + roundF32 (roundF32 ((a : ℚ) / (b : ℚ)) * (h : ℚ)))
    ((2 * h : Nat) : ℚ) (by linarith) (by push_cast; linarith)
  rw [roundF32_natCast (2 * h) hh] at h2
  exact ⟨h1, h2⟩

/-- The lower-branch value is monotone in the numerator of the quotient. -/
theorem f32_low_mono (a c b h : Nat) (hac : a ≤ c) :
    roundF32 (roundF32 ((a : ℚ) / (b : ℚ)) * (h : ℚ)) ≤
      roundF32 (roundF32 ((c : ℚ) / (b : ℚ)) * (h : ℚ)) := by
  have hbq : (0 : ℚ) ≤ (b : ℚ) := Nat.cast_nonneg b
  have hhq : (0 : ℚ) ≤ (h : ℚ) := Nat.cast_nonneg h
  have ht : (0 : ℚ) ≤ (a : ℚ) / (b : ℚ) := by positivity
  have hdiv : (a : ℚ) / (b : ℚ) ≤ (c : ℚ) / (b : ℚ) :=
    div_le_div_of_nonneg_right (by exact_mod_cast hac) hbq
  have hq := roundF32_mono _ _ ht hdiv
  have hq0 := roundF32_nonneg _ ht
  exact roundF32_mono _ _ (mul_nonneg hq0 hhq) (mul_le_mul_of_nonneg_right hq hhq)

/-- The upper-branch value is monotone in the numerator of the quotient. -/
theorem f32_high_mono (a c b h : Nat) (hac : a ≤ c) :
    roundF32 ((h : ℚ) + roundF32 (roundF32 ((a : ℚ) / (b : ℚ)) * (h : ℚ))) ≤
      roundF32 ((h : ℚ) + roundF32 (roundF32 ((c : ℚ) / (b : ℚ)) * (h : ℚ))) := by
  have hhq : (0 : ℚ) ≤ (h : ℚ) := Nat.cast_nonneg h
  have ht : (0 : ℚ) ≤ (a : ℚ) / (b : ℚ) := by positivity
  have hp0 : 0 ≤ roundF32 (roundF32 ((a : ℚ) / (b : ℚ)) * (h : ℚ)) :=
    roundF32_nonneg _ (mul_nonneg (roundF32_nonneg _ ht) hhq)
  have hm := f32_low_mono a c b h hac
  exact roundF32_mono _ _ (by linarith) (by linarith)

/-- Below the lower edge the rounded product stays strictly below the half-range. -/
theorem f32_low_lt (a b h : Nat) (hab : a < b) (hb : b < 65536) (hh : 0 < h) :
    roundF32 (roundF32 ((a : ℚ) / (b : ℚ)) * (h : ℚ)) < (h : ℚ) := by
  have hb0 : 0 < b := by omega
  have hbq : (0 : ℚ) < (b : ℚ) := by exact_mod_cast hb0
  have hhq : (0 : ℚ) < (h : ℚ) := by exact_mod_cast hh
  have ht : (0 : ℚ) ≤ (a : ℚ) / (b : ℚ) := by positivity
  obtain ⟨-, herr⟩ := roundF32_mul_err ((a : ℚ) / (b : ℚ)) h ht
  have ht1 : (a : ℚ) / (b : ℚ) ≤ 65535 / 65536 := by
    rw [div_le_div_iff₀ hbq (by norm_num)]
    have h1 : a + 1 ≤ b := hab
    have h2 : b ≤ 65535 := by omega
    have h1q : (a : ℚ) + 1 ≤ (b : ℚ) := by exact_mod_cast h1
    have h2q : (b : ℚ) ≤ 65535 := by exact_mod_cast h2
    linarith
  have hw := mul_le_mul_of_nonneg_right ht1 hhq.le
  have hw0 : 0 ≤ (a : ℚ) / (b : ℚ) * (h : ℚ) := mul_nonneg ht hhq.le
  rw [abs_le] at herr
  linarith

theorem projF32_le (pos l u M : Nat) (hM : M < 65536) (hp : pos ≤ M) :
    projF32 pos l u M ≤ M := by
  unfold projF32
  split_ifs with h1 h2
  · have hb := (f32_low_bounds pos l (M / 2) h1.le (by omega) (by omega)).2
    have := floor_toNat_le _ _ hb
    omega
  · have hb := (f32_high_bounds (pos - u) (M - u) (M / 2) (by omega) (by omega) (by omega)).2
    have := floor_toNat_le _ _ hb
    omega
  · omega

/-- For an in-range sample `readJoyAxis` is defined, whatever the edges are, and returns
the closed form of its binary32 computation. -/
theorem readJoyAxis_eq_projF32 (analogRead : Nat → Nat) (pin l u M : Nat)
    (hM : M < 65536) (hp : analogRead pin ≤ M) :
    readJoyAxis analogRead pin l u M = some (projF32 (analogRead pin) l u M) := by
  have hle := projF32_le (analogRead pin) l u M hM hp
  unfold projF32 at hle ⊢
  unfold readJoyAxis
  simp only [toWord_natCast (analogRead pin) (by omega)]
  split_ifs with h1 h2
  · rw [if_pos h1] at hle
    have hne : (l : ℚ) ≠ 0 := by exact_mod_cast (by omega : l ≠ 0)
    have h0 := (f32_low_bounds (analogRead pin) l (M / 2) h1.le (by omega) (by omega)).1
    simp only [floatDiv, hne, if_false, Option.some_bind, floatMul]
    exact floatToWord_of_floor _ _ h0
      (Int.toNat_of_nonneg (Int.floor_nonneg.mpr h0)).symm (by omega)
  · rw [if_neg h1, if_pos h2] at hle
    rw [toWord_sub _ _ (by omega) (by omega), toWord_sub _ _ (by omega) (by omega)]
    have hne : ((M - u : Nat) : ℚ) ≠ 0 := by exact_mod_cast (by omega : M - u ≠ 0)
    have hb := (f32_high_bounds (analogRead pin - u) (M - u) (M / 2)
      (by omega) (by omega) (by omega)).1
    have h0 : (0 : ℚ) ≤ roundF32 (((M / 2 : Nat) : ℚ) +
        roundF32 (roundF32 (((analogRead pin - u : Nat) : ℚ) / ((M - u : Nat) : ℚ)) *
          ((M / 2 : Nat) : ℚ))) := le_trans (Nat.cast_nonneg _) hb
    simp only [floatDiv, hne, if_false, Option.some_bind, floatMul, floatAdd]
    exact floatToWord_of_floor _ _ h0
      (Int.toNat_of_nonneg (Int.floor_nonneg.mpr h0)).symm (by omega)
  · rfl

/-- With `axis_max = 1023` the binary32 roundings do not change the truncated result: on a
valid configuration the computed value is the exact piecewise rule. -/
theorem projF32_eq_projNat_1023 (pos l u : Nat) (hl : 0 < l) (hlu : l ≤ u) (hu : u < 1023)
    (hp : pos ≤ 1023) : projF32 pos l u 1023 = projNat pos l u 1023 := by
  unfold projF32 projNat
  have e511 : 1023 / 2 = 511 := by norm_num
  rw [e511]
  split_ifs with h1 h2
  · rw [(floor_proj_low_511 pos l h1 (by omega)).2, Int.toNat_ofNat]
  · rw [(floor_proj_high_511 (pos - u) (1023 - u) (by omega) (by omega) (by omega)).2,
      Int.toNat_ofNat]
  · rfl

/-- On a valid configuration with `axis_max = 1023` and an in-range sample, `readJoyAxis`
is defined and returns the exact piecewise rule. -/
theorem readJoyAxis_eq_projNat (analogRead : Nat → Nat) (pin l u : Nat)
    (hl : 0 < l) (hlu : l ≤ u) (hu : u < 1023) (hp : analogRead pin ≤ 1023) :
    readJoyAxis analogRead pin l u 1023 = some (projNat (analogRead pin) l u 1023) := by
  rw [readJoyAxis_eq_projF32 analogRead pin l u 1023 (by norm_num) hp,
    projF32_eq_projNat_1023 _ l u hl hlu hu hp]

theorem projF32_mono (a b l u M : Nat) (hl : 0 < l) (hlu : l ≤ u) (hu : u < M)
    (hM : M < 65536) (hab : a ≤ b) (hb : b ≤ M) : projF32 a l u M ≤ projF32 b l u M := by
  unfold projF32
  split_ifs with h1 h2 h3 h4 h5 h6 h7
  · exact floor_toNat_mono _ _ (f32_low_mono a b l (M / 2) hab)
  · have b1 := (f32_low_bounds a l (M / 2) h1.le hl (by omega)).2
    have b2 := (f32_high_bounds (b - u) (M - u) (M / 2) (by omega) (by omega) (by omega)).1
    exact (floor_toNat_le _ _ b1).trans (le_floor_toNat _ _ b2)
  · exact floor_toNat_le _ _ (f32_low_bounds a l (M / 2) h1.le hl (by omega)).2
  · omega
  · exact floor_toNat_mono _ _ (f32_high_mono (a - u) (b - u) (M - u) (M / 2) (by omega))
  · omega
  · omega
  · exact le_floor_toNat _ _
      (f32_high_bounds (b - u) (M - u) (M / 2) (by omega) (by omega) (by omega)).1
  · exact le_refl _


theorem truncQ_div_mul (a b h : Nat) :
    (truncQ ((a : ℚ) / (b : ℚ) * (h : ℚ))).toNat = a * h / b := by
  unfold truncQ
  rw [if_pos (div_mul_nonneg a b h), floor_div_mul, Int.toNat_ofNat]

theorem projectSpec_eq_projNat (pos l u M : Nat) (hu : u < M) :
    projectSpec pos l u M = projNat pos l u M := by
  unfold projectSpec projNat
  split_ifs with h1 h2
  · exact truncQ_div_mul _ _ _
  · have e1 : (pos : ℚ) - (u : ℚ) = ((pos - u : Nat) : ℚ) := by
      rw [Nat.cast_sub (by omega)]
    have e2 : (M : ℚ) - (u : ℚ) = ((M - u : Nat) : ℚ) := by
      rw [Nat.cast_sub (by omega)]
    rw [e1, e2, truncQ_div_mul]
  · rfl

theorem projNat_mono (a b l u M : Nat) (hl : 0 < l) (hlu : l ≤ u) (hu : u < M)
    (hab : a ≤ b) (hb : b ≤ M) : projNat a l u M ≤ projNat b l u M := by
  have hh : 0 < M / 2 := by omega
  unfold projNat
  split_ifs with h1 h2 h3 h4 h5 h6 h7
  · exact Nat.div_le_div_right (Nat.mul_le_mul_right _ hab)
  · exact (low_lt_half a l (M / 2) h1 hh).le.trans (Nat.le_add_right _ _)
  · exact (low_lt_half a l (M / 2) h1 hh).le
  · omega
  · exact Nat.add_le_add_left
      (Nat.div_le_div_right (Nat.mul_le_mul_right _ (by omega))) _
  · omega
  · omega
  · exact Nat.le_add_right _ _
  · exact le_refl _

/-- C1 (counterexample): with edges 22 and 30 and `axis_max = 44`, the sample 13 is
projected by `readJoyAxis` to 12: the binary32 quotient `13 / 22` is rounded down to
`9913809 * 2^-24`, its product with 22 rounds to `13631487 * 2^-20`, just below 13, and the
truncation gives 12, while the piecewise rule with exact fractions gives 13. -/
theorem readJoyAxis_not_exact_rule :
    readJoyAxis (fun _ => 13) 0 22 30 44 = some 12 ∧ projectSpec 13 22 30 44 = 13 ∧
      readJoyAxis (fun _ => 13) 0 22 30 44 ≠ some (projectSpec 13 22 30 44) := by
  have hq : roundF32 ((13 : ℚ) / 22) = ((9913809 : Int) : ℚ) * (2 : ℚ) ^ (-24 : Int) :=
    roundF32_eq_of_near _ (-24) 9913809 (by norm_num) (by norm_num)
      (by rw [abs_lt]; constructor <;> norm_num)
  have hp : roundF32 (((9913809 : Int) : ℚ) * (2 : ℚ) ^ (-24 : Int) * 22) =
      ((13631487 : Int) : ℚ) * (2 : ℚ) ^ (-20 : Int) :=
    roundF32_eq_of_near _ (-20) 13631487 (by norm_num) (by norm_num)
      (by rw [abs_lt]; constructor <;> norm_num)
  have hfl : ⌊((13631487 : Int) : ℚ) * (2 : ℚ) ^ (-20 : Int)⌋ = 12 := by
    rw [Int.floor_eq_iff]; constructor <;> norm_num
  have hv : projF32 ((fun _ : Nat => 13) 0) 22 30 44 = 12 := by
    unfold projF32
    rw [if_pos (by norm_num)]
    have e1 : (((fun _ : Nat => 13) 0 : Nat) : ℚ) / ((22 : Nat) : ℚ) = (13 : ℚ) / 22 := by
      norm_num
    have e2 : ((44 / 2 : Nat) : ℚ) = 22 := by norm_num
    rw [e1, e2, hq, hp, hfl]
    rfl
  have hcode : readJoyAxis (fun _ => 13) 0 22 30 44 = some 12 := by
    rw [readJoyAxis_eq_projF32 (fun _ => 13) 0 22 30 44 (by norm_num) (by norm_num), hv]
  have hrule : projectSpec 13 22 30 44 = 13 := by
    rw [projectSpec_eq_projNat _ _ _ _ (by norm_num)]
    decide
  refine ⟨hcode, hrule, ?_⟩
  rw [hcode, hrule]
  decide

/-- C1 (amended): for `axis_max = XY_MAX_IN = 1023`, the value the driver passes, on a valid
configuration (`0 < lower_edge ≤ upper_edge < 1023`) and a sample in `[0, 1023]`,
`readJoyAxis` returns the value of the piecewise projection rule (exact fractions, integer
half 511, single final truncation): there the binary32 roundings of the quotient, the
product and the sum do not change the truncated result. -/
theorem readJoyAxis_implements_projectSpec (analogRead : Nat → Nat)
    (axis_pin lower_edge upper_edge : Nat)
    (hl : 0 < lower_edge) (hlu : lower_edge ≤ upper_edge) (hu : upper_edge < XY_MAX_IN)
    (hp : analogRead axis_pin ≤ XY_MAX_IN) :
    readJoyAxis analogRead axis_pin lower_edge upper_edge XY_MAX_IN =
      some (projectSpec (analogRead axis_pin) lower_edge upper_edge XY_MAX_IN) := by
  unfold XY_MAX_IN at hu hp ⊢
  rw [readJoyAxis_eq_projNat analogRead axis_pin lower_edge upper_edge hl hlu hu hp,
    projectSpec_eq_projNat _ _ _ _ hu]

theorem readJoyAxis_implements_projectSpec_witness :
    readJoyAxis (fun _ => 508) 0 509 515 XY_MAX_IN =
      some (projectSpec 508 509 515 XY_MAX_IN) :=
  readJoyAxis_implements_projectSpec (fun _ => 508) 0 509 515
    (by decide) (by decide) (by decide) (by decide)

/-- Inside the dead-zone `readJoyAxis` takes neither projection branch. -/
theorem readJoyAxis_deadzone (analogRead : Nat → Nat) (pin l u M : Nat)
    (hp : analogRead pin < 65536) (h1 : l ≤ analogRead pin) (h2 : analogRead pin ≤ u) :
    readJoyAxis analogRead pin l u M = some (M / 2) := by
  unfold readJoyAxis
  simp only [toWord_natCast (analogRead pin) hp]
  rw [if_neg (by omega), if_neg (by omega)]

/-- C2: when the edges `center - radius` and `center + radius` lie strictly inside
`(0, rawMax)`, every sample between the two edges (both inclusive) is projected by
`readJoyAxis`, fed with the edges of the axis, to exactly `rawMax / 2`; this holds for the
x axis and for the y axis. -/
theorem deadzone_flattening (j : Joy) (analogRead : Nat → Nat) (rawMax : Nat)
    (hM : rawMax < 65536) :
    (j.DEADZONE_RADIUS < j.x_center → j.x_center + j.DEADZONE_RADIUS < rawMax →
      j.x_center - j.DEADZONE_RADIUS ≤ analogRead j.X_PIN →
      analogRead j.X_PIN ≤ j.x_center + j.DEADZONE_RADIUS →
      readJoyAxis analogRead j.X_PIN (x_lower_edge j) (x_upper_edge j) rawMax =
        some (rawMax / 2)) ∧
    (j.DEADZONE_RADIUS < j.y_center → j.y_center + j.DEADZONE_RADIUS < rawMax →
      j.y_center - j.DEADZONE_RADIUS ≤ analogRead j.Y_PIN →
      analogRead j.Y_PIN ≤ j.y_center + j.DEADZONE_RADIUS →
      readJoyAxis analogRead j.Y_PIN (y_lower_edge j) (y_upper_edge j) rawMax =
        some (rawMax / 2)) := by
  constructor
  · intro h1 h2 h3 h4
    have el : x_lower_edge j = j.x_center - j.DEADZONE_RADIUS :=
      toWord_sub _ _ (by omega) (by omega)
    have eu : x_upper_edge j = j.x_center + j.DEADZONE_RADIUS :=
      toWord_add _ _ (by omega)
    rw [el, eu]
    exact readJoyAxis_deadzone _ _ _ _ _ (by omega) h3 h4
  · intro h1 h2 h3 h4
    have el : y_lower_edge j = j.y_center - j.DEADZONE_RADIUS :=
      toWord_sub _ _ (by omega) (by omega)
    have eu : y_upper_edge j = j.y_center + j.DEADZONE_RADIUS :=
      toWord_add _ _ (by omega)
    rw [el, eu]
    exact readJoyAxis_deadzone _ _ _ _ _ (by omega) h3 h4

theorem deadzone_flattening_witness :
    readJoyAxis (fun _ => 509) 0 (x_lower_edge ⟨0, 1, 7, 3, 512, 520⟩)
        (x_upper_edge ⟨0, 1, 7, 3, 512, 520⟩) 1023 = some (1023 / 2) ∧
      readJoyAxis (fun _ => 523) 1 (y_lower_edge ⟨0, 1, 7, 3, 512, 520⟩)
        (y_upper_edge ⟨0, 1, 7, 3, 512, 520⟩) 1023 = some (1023 / 2) :=
  ⟨(deadzone_flattening ⟨0, 1, 7, 3, 512, 520⟩ (fun _ => 509) 1023 (by decide)).1
      (by decide) (by decide) (by decide) (by decide),
    (deadzone_flattening ⟨0, 1, 7, 3, 512, 520⟩ (fun _ => 523) 1023 (by decide)).2
      (by decide) (by decide) (by decide) (by decide)⟩

/-- C3 (evaluation at the failing input): with edges 509 and 515 and `axis_max = 1023`,
the sample 1023 is projected by `readJoyAxis` to `511 + 511 = 1022`, not to 1023. -/
theorem readJoyAxis_at_rawMax :
    readJoyAxis (fun _ => 1023) 0 509 515 1023 = some 1022 ∧
      readJoyAxis (fun _ => 1023) 0 509 515 1023 ≠ some 1023 := by
  have h := readJoyAxis_eq_projNat (fun _ => 1023) 0 509 515
    (by decide) (by decide) (by decide) (by decide)
  have e : projNat ((fun _ : Nat => 1023) 0) 509 515 1023 = 1022 := by decide
  rw [e] at h
  rw [h]
  exact ⟨rfl, by decide⟩

/-- C4: on a valid configuration (`0 < lowerEdge ≤ upperEdge < rawMax`), `readJoyAxis`
projects the raw sample 0 to 0. -/
theorem readJoyAxis_zero (analogRead : Nat → Nat) (axis_pin lowerEdge upperEdge rawMax : Nat)
    (hl : 0 < lowerEdge) (hlu : lowerEdge ≤ upperEdge) (hu : upperEdge < rawMax)
    (hM : rawMax < 65536) (hs : analogRead axis_pin = 0) :
    readJoyAxis analogRead axis_pin lowerEdge upperEdge rawMax = some 0 := by
  rw [readJoyAxis_eq_projF32 analogRead axis_pin lowerEdge upperEdge rawMax hM (by omega), hs]
  unfold projF32
  rw [if_pos hl]
  simp [roundF32_zero]

theorem readJoyAxis_zero_witness : readJoyAxis (fun _ => 0) 0 509 515 1023 = some 0 :=
  readJoyAxis_zero (fun _ => 0) 0 509 515 1023
    (by decide) (by decide) (by decide) (by decide) rfl

/-- C5: for a fixed valid configuration, `readJoyAxis` is monotonic non-decreasing in the
raw sample over `[0, rawMax]`: for samples `a ≤ b` both reads are defined and the first
result is at most the second. -/
theorem readJoyAxis_monotone (readA readB : Nat → Nat)
    (axis_pin lowerEdge upperEdge rawMax : Nat)
    (hl : 0 < lowerEdge) (hlu : lowerEdge ≤ upperEdge) (hu : upperEdge < rawMax)
    (hM : rawMax < 65536) (hab : readA axis_pin ≤ readB axis_pin)
    (hb : readB axis_pin ≤ rawMax) :
    ∃ x y, readJoyAxis readA axis_pin lowerEdge upperEdge rawMax = some x ∧
      readJoyAxis readB axis_pin lowerEdge upperEdge rawMax = some y ∧ x ≤ y :=
  ⟨_, _,
    readJoyAxis_eq_projF32 readA axis_pin lowerEdge upperEdge rawMax hM (hab.trans hb),
    readJoyAxis_eq_projF32 readB axis_pin lowerEdge upperEdge rawMax hM hb,
    projF32_mono _ _ _ _ _ hl hlu hu hM hab hb⟩

theorem readJoyAxis_monotone_witness :
    ∃ x y, readJoyAxis (fun _ => 508) 0 509 515 1023 = some x ∧
      readJoyAxis (fun _ => 516) 0 509 515 1023 = some y ∧ x ≤ y :=
  readJoyAxis_monotone (fun _ => 508) (fun _ => 516) 0 509 515 1023
    (by decide) (by decide) (by decide) (by decide) (by decide) (by decide)


/-- Evaluation of `readJoyAxisAsByte` on the x axis of a device whose x edges are valid. -/
theorem readJoyAxisAsByte_x (j : Joy) (analogRead : Nat → Nat)
    (hl : 0 < x_lower_edge j) (hlu : x_lower_edge j ≤ x_upper_edge j)
    (hu : x_upper_edge j < XY_MAX_IN) (hp : analogRead j.X_PIN ≤ XY_MAX_IN) :
    readJoyAxisAsByte j analogRead X_AXIS =
      some (castToByte (wordToInt
        (projNat (analogRead j.X_PIN) (x_lower_edge j) (x_upper_edge j) XY_MAX_IN))) := by
  unfold readJoyAxisAsByte
  unfold XY_MAX_IN at hu hp ⊢
  rw [if_pos rfl, readJoyAxis_eq_projNat analogRead j.X_PIN _ _ hl hlu hu hp]
  rfl

/-- Evaluation of `readJoyAxisAsByte` on the y axis of a device whose y edges are valid. -/
theorem readJoyAxisAsByte_y (j : Joy) (analogRead : Nat → Nat)
    (hl : 0 < y_lower_edge j) (hlu : y_lower_edge j ≤ y_upper_edge j)
    (hu : y_upper_edge j < XY_MAX_IN) (hp : analogRead j.Y_PIN ≤ XY_MAX_IN) :
    readJoyAxisAsByte j analogRead Y_AXIS =
      some (castToByte (wordToInt
        (projNat (analogRead j.Y_PIN) (y_lower_edge j) (y_upper_edge j) XY_MAX_IN))) := by
  unfold readJoyAxisAsByte
  unfold XY_MAX_IN at hu hp ⊢
  rw [if_neg (by decide), if_pos rfl,
    readJoyAxis_eq_projNat analogRead j.Y_PIN _ _ hl hlu hu hp]
  rfl

/-- Edges of an axis calibrated at 512 with dead-zone radius 3. -/
theorem edges_512_3 (x_pin y_pin button_pin : Nat) :
    x_lower_edge ⟨x_pin, y_pin, button_pin, 3, 512, 512⟩ = 509 ∧
    x_upper_edge ⟨x_pin, y_pin, button_pin, 3, 512, 512⟩ = 515 ∧
    y_lower_edge ⟨x_pin, y_pin, button_pin, 3, 512, 512⟩ = 509 ∧
    y_upper_edge ⟨x_pin, y_pin, button_pin, 3, 512, 512⟩ = 515 :=
  ⟨rfl, rfl, rfl, rfl⟩

/-- Byte delivered on the x axis by a device calibrated at 512 with dead-zone radius 3. -/
theorem readJoyAxisAsByte_x_512_3 (x_pin y_pin button_pin s : Nat) (hs : s ≤ 1023) :
    readJoyAxisAsByte ⟨x_pin, y_pin, button_pin, 3, 512, 512⟩ (fun _ => s) X_AXIS =
      some (castToByte (wordToInt (projNat s 509 515 1023))) := by
  obtain ⟨e1, e2, -, -⟩ := edges_512_3 x_pin y_pin button_pin
  rw [readJoyAxisAsByte_x _ _ (by rw [e1]; decide) (by rw [e1, e2]; decide)
    (by rw [e2]; decide) hs, e1, e2]
  rfl

/-- Byte delivered on the y axis by a device calibrated at 512 with dead-zone radius 3. -/
theorem readJoyAxisAsByte_y_512_3 (x_pin y_pin button_pin s : Nat) (hs : s ≤ 1023) :
    readJoyAxisAsByte ⟨x_pin, y_pin, button_pin, 3, 512, 512⟩ (fun _ => s) Y_AXIS =
      some (castToByte (wordToInt (projNat s 509 515 1023))) := by
  obtain ⟨-, -, e1, e2⟩ := edges_512_3 x_pin y_pin button_pin
  rw [readJoyAxisAsByte_y _ _ (by rw [e1]; decide) (by rw [e1, e2]; decide)
    (by rw [e2]; decide) hs, e1, e2]
  rfl

/-- C6 (evaluation at the failing input): with center 512 and dead-zone radius 3,
`readJoyAxisAsByte` yields 0 on the sample 0 but 254 on the sample 1023, on either axis;
`reverse` sends these two bytes to 255 and to 1. -/
theorem readJoyAxisAsByte_extremes (x_pin y_pin button_pin : Nat) :
    readJoyAxisAsByte ⟨x_pin, y_pin, button_pin, 3, 512, 512⟩ (fun _ => 0) X_AXIS = some 0 ∧
    readJoyAxisAsByte ⟨x_pin, y_pin, button_pin, 3, 512, 512⟩ (fun _ => 1023) X_AXIS
      = some 254 ∧
    readJoyAxisAsByte ⟨x_pin, y_pin, button_pin, 3, 512, 512⟩ (fun _ => 0) Y_AXIS = some 0 ∧
    readJoyAxisAsByte ⟨x_pin, y_pin, button_pin, 3, 512, 512⟩ (fun _ => 1023) Y_AXIS
      = some 254 ∧
    reverse 0 = 255 ∧ reverse 254 = 1 := by
  refine ⟨?_, ?_, ?_, ?_, by decide, by decide⟩
  · rw [readJoyAxisAsByte_x_512_3 _ _ _ _ (by decide)]
    decide
  · rw [readJoyAxisAsByte_x_512_3 _ _ _ _ (by decide)]
    decide
  · rw [readJoyAxisAsByte_y_512_3 _ _ _ _ (by decide)]
    decide
  · rw [readJoyAxisAsByte_y_512_3 _ _ _ _ (by decide)]
    decide

/-- C7: with `rawMax = 1023`, center 512 and dead-zone radius 3, `readJoyAxisAsByte`
yields the centered byte 127 on the sample 512, the same byte on the sample 509 (the
inclusive lower dead-zone edge), and the strictly smaller byte 126 on the sample 508; the
same holds on the y axis. -/
theorem readJoyAxisAsByte_deadzone_edge (x_pin y_pin button_pin : Nat) :
    (∃ c b, (c = 127 ∨ c = 128) ∧
      readJoyAxisAsByte ⟨x_pin, y_pin, button_pin, 3, 512, 512⟩ (fun _ => 512) X_AXIS
        = some c ∧
      readJoyAxisAsByte ⟨x_pin, y_pin, button_pin, 3, 512, 512⟩ (fun _ => 509) X_AXIS
        = some c ∧
      readJoyAxisAsByte ⟨x_pin, y_pin, button_pin, 3, 512, 512⟩ (fun _ => 508) X_AXIS
        = some b ∧ b < c) ∧
    (∃ c b, (c = 127 ∨ c = 128) ∧
      readJoyAxisAsByte ⟨x_pin, y_pin, button_pin, 3, 512, 512⟩ (fun _ => 512) Y_AXIS
        = some c ∧
      readJoyAxisAsByte ⟨x_pin, y_pin, button_pin, 3, 512, 512⟩ (fun _ => 509) Y_AXIS
        = some c ∧
      readJoyAxisAsByte ⟨x_pin, y_pin, button_pin, 3, 512, 512⟩ (fun _ => 508) Y_AXIS
        = some b ∧ b < c) := by
  refine ⟨⟨127, 126, Or.inl rfl, ?_, ?_, ?_, by decide⟩,
    ⟨127, 126, Or.inl rfl, ?_, ?_, ?_, by decide⟩⟩
  · rw [readJoyAxisAsByte_x_512_3 _ _ _ _ (by decide)]
    decide
  · rw [readJoyAxisAsByte_x_512_3 _ _ _ _ (by decide)]
    decide
  · rw [readJoyAxisAsByte_x_512_3 _ _ _ _ (by decide)]
    decide
  · rw [readJoyAxisAsByte_y_512_3 _ _ _ _ (by decide)]
    decide
  · rw [readJoyAxisAsByte_y_512_3 _ _ _ _ (by decide)]
    decide
  · rw [readJoyAxisAsByte_y_512_3 _ _ _ _ (by decide)]
    decide

/-! ## Calibration loop lemmas -/

theorem getAxisCenterLoop_done (f : Nat → Nat) (fuel : Nat) (st : CenterState)
    (h : ¬ st.readCount < sureCount) : getAxisCenterLoop f fuel st = some st := by
  cases fuel with
  | zero => simp [getAxisCenterLoop, h]
  | succ n => simp [getAxisCenterLoop, h]

theorem getAxisCenterLoop_step (f : Nat → Nat) (fuel : Nat) (st : CenterState)
    (h : st.readCount < sureCount) :
    getAxisCenterLoop f (fuel + 1) st = getAxisCenterLoop f fuel (getAxisCenterBody f st) := by
  simp [getAxisCenterLoop, h]

/-- Splitting the fuel: the loop either returns within the first `a` iterations, or goes
on from the state reached after `a` executions of its body. -/
theorem getAxisCenterLoop_add (f : Nat → Nat) (a b : Nat) (st : CenterState) :
    getAxisCenterLoop f (a + b) st =
      match getAxisCenterLoop f a st with
      | some r => some r
      | none => getAxisCenterLoop f b ((getAxisCenterBody f)^[a] st) := by
  induction a generalizing st with
  | zero =>
    by_cases h : st.readCount < sureCount
    · simp [getAxisCenterLoop, h]
    · simp [getAxisCenterLoop_done f _ st h]
  | succ a ih =>
    by_cases h : st.readCount < sureCount
    · rw [Nat.add_right_comm, getAxisCenterLoop_step f _ st h, getAxisCenterLoop_step f _ st h,
        ih, Function.iterate_succ_apply]
    · simp [getAxisCenterLoop_done f _ st h]

theorem getAxisCenterLoop_mono (f : Nat → Nat) (a b : Nat) (st r : CenterState)
    (h : getAxisCenterLoop f a st = some r) : getAxisCenterLoop f (a + b) st = some r := by
  rw [getAxisCenterLoop_add, h]

theorem getAxisCenterBody_agree (f : Nat → Nat) (st : CenterState)
    (h : f (st.reads + 1) = f st.reads) :
    getAxisCenterBody f st =
      { lastRead := f st.reads, readCount := (st.readCount + 1) % 256,
        reads := st.reads + 2 } := by
  simp only [getAxisCenterBody, h, if_true]

theorem getAxisCenterBody_differ (f : Nat → Nat) (st : CenterState)
    (h : f (st.reads + 1) ≠ f st.reads) :
    getAxisCenterBody f st =
      { lastRead := f st.reads, readCount := 0, reads := st.reads + 2 } := by
  simp only [getAxisCenterBody, h, if_false]

theorem getAxisCenterBody_reads (f : Nat → Nat) (st : CenterState) :
    (getAxisCenterBody f st).reads = st.reads + 2 := by
  by_cases h : f (st.reads + 1) = f st.reads
  · rw [getAxisCenterBody_agree f st h]
  · rw [getAxisCenterBody_differ f st h]

theorem getAxisCenterBody_lastRead (f : Nat → Nat) (st : CenterState) :
    (getAxisCenterBody f st).lastRead = f st.reads := by
  by_cases h : f (st.reads + 1) = f st.reads
  · rw [getAxisCenterBody_agree f st h]
  · rw [getAxisCenterBody_differ f st h]

theorem getAxisCenterBody_iterate_reads (f : Nat → Nat) (a : Nat) (st : CenterState) :
    ((getAxisCenterBody f)^[a] st).reads = st.reads + 2 * a := by
  induction a generalizing st with
  | zero => rfl
  | succ a ih =>
    rw [Function.iterate_succ_apply, ih, getAxisCenterBody_reads]
    omega

/-- What a returning run of the loop establishes, from a state that is consistent with the
samples taken so far (`k` iterations done, the last `readCount` of them agreeing). -/
theorem getAxisCenterLoop_sound (f : Nat → Nat) (fuel : Nat) :
    ∀ (st r : CenterState) (k : Nat), st.reads = 2 * k → st.readCount ≤ k →
      st.readCount ≤ 10 →
      (∀ i, k - st.readCount ≤ i → i < k → f (2 * i + 1) = f (2 * i)) →
      (0 < k → st.lastRead = f (2 * (k - 1))) →
      getAxisCenterLoop f fuel st = some r →
      ∃ n, k ≤ n ∧ n ≤ k + fuel ∧ 10 ≤ n ∧ r.reads = 2 * n ∧ r.readCount = 10 ∧
        (∀ i, n - 10 ≤ i → i < n → f (2 * i + 1) = f (2 * i)) ∧
        r.lastRead = f (2 * (n - 1)) := by
  induction fuel with
  | zero =>
    intro st r k hr hck hc10 hrun hlast hres
    by_cases h : st.readCount < sureCount
    · simp [getAxisCenterLoop, h] at hres
    · rw [getAxisCenterLoop_done f _ st h] at hres
      cases hres
      have h10 : st.readCount = 10 := by unfold sureCount at h; omega
      refine ⟨k, le_refl _, by omega, by omega, hr, h10, ?_, hlast (by omega)⟩
      intro i hi1 hi2
      exact hrun i (by omega) hi2
  | succ fuel ih =>
    intro st r k hr hck hc10 hrun hlast hres
    by_cases h : st.readCount < sureCount
    · rw [getAxisCenterLoop_step f _ st h] at hres
      have hlt : st.readCount < 10 := h
      by_cases hag : f (st.reads + 1) = f st.reads
      · rw [getAxisCenterBody_agree f st hag] at hres
        have hmod : (st.readCount + 1) % 256 = st.readCount + 1 := by omega
        obtain ⟨n, h1, h2, h3, h4⟩ := ih _ r (k + 1) (by simp only; omega)
          (by simp only; omega) (by simp only; omega)
          (by
            intro i hi1 hi2
            simp only [hmod] at hi1
            by_cases hik : i = k
            · rw [hik, ← hr]; exact hag
            · exact hrun i (by omega) (by omega))
          (by intro _; simp only [hr, Nat.add_sub_cancel]) hres
        exact ⟨n, by omega, by omega, h3, h4⟩
      · rw [getAxisCenterBody_differ f st hag] at hres
        obtain ⟨n, h1, h2, h3, h4⟩ := ih _ r (k + 1) (by simp only; omega)
          (by simp only; omega) (by simp only; omega)
          (by
            intro i hi1 hi2
            simp only at hi1
            omega)
          (by intro _; simp only [hr, Nat.add_sub_cancel]) hres
        exact ⟨n, by omega, by omega, h3, h4⟩
    · rw [getAxisCenterLoop_done f _ st h] at hres
      cases hres
      have h10 : st.readCount = 10 := by unfold sureCount at h; omega
      refine ⟨k, le_refl _, by omega, by omega, hr, h10, ?_, hlast (by omega)⟩
      intro i hi1 hi2
      exact hrun i (by omega) hi2

/-- The loop returns once enough agreeing pairs follow the current position. -/
theorem getAxisCenterLoop_complete (f : Nat → Nat) (fuel : Nat) :
    ∀ (st : CenterState) (k : Nat), st.reads = 2 * k →
      (∀ i, k ≤ i → i < k + fuel → f (2 * i + 1) = f (2 * i)) →
      10 ≤ st.readCount + fuel → ∃ r, getAxisCenterLoop f fuel st = some r := by
  induction fuel with
  | zero =>
    intro st k _ _ h10
    exact ⟨st, getAxisCenterLoop_done f _ st (by unfold sureCount; omega)⟩
  | succ fuel ih =>
    intro st k hr hrun h10
    by_cases h : st.readCount < sureCount
    · have hlt : st.readCount < 10 := h
      have hag : f (st.reads + 1) = f st.reads := by
        rw [hr]; exact hrun k (le_refl _) (by omega)
      rw [getAxisCenterLoop_step f _ st h, getAxisCenterBody_agree f st hag]
      have hmod : (st.readCount + 1) % 256 = st.readCount + 1 := by omega
      exact ih _ (k + 1) (by simp only; omega)
        (fun i hi1 hi2 => hrun i (by omega) (by omega)) (by simp only [hmod]; omega)
    · exact ⟨st, getAxisCenterLoop_done f _ st h⟩

/-- C9: on a channel that delivers the same in-range value `K` on every sample,
`getAxisCenter` returns `K` whenever at least 10 iterations are allowed, having taken
exactly 20 samples. -/
theorem getAxisCenter_constant (K fuel : Nat) (hK : K ≤ 1023) (hfuel : 10 ≤ fuel) :
    getAxisCenter (fun _ => K) fuel = some K ∧
      getAxisCenterRun (fun _ => K) fuel =
        some { lastRead := K, readCount := 10, reads := 20 } := by
  have h10 : getAxisCenterLoop (fun _ => K) 10 centerInit =
      some { lastRead := K, readCount := 10, reads := 20 } := by
    simp [getAxisCenterLoop, getAxisCenterBody, centerInit, sureCount]
  have hrun : getAxisCenterRun (fun _ => K) fuel =
      some { lastRead := K, readCount := 10, reads := 20 } := by
    unfold getAxisCenterRun
    have hsplit : fuel = 10 + (fuel - 10) := by omega
    rw [hsplit]
    exact getAxisCenterLoop_mono _ _ _ _ _ h10
  refine ⟨?_, hrun⟩
  unfold getAxisCenter
  rw [hrun]
  simp only [Option.map_some', Option.some.injEq]
  exact toWord_natCast K (by omega)

theorem getAxisCenter_constant_witness :
    getAxisCenter (fun _ => 512) 10 = some 512 ∧
      getAxisCenterRun (fun _ => 512) 10 =
        some { lastRead := 512, readCount := 10, reads := 20 } :=
  getAxisCenter_constant 512 10 (by decide) (by decide)

/-- On the alternating channel every state the loop reaches has an even number of reads
and a zero agreement counter, so the loop never returns. -/
theorem getAxisCenterLoop_alternating (K1 K2 : Nat) (h : K1 ≠ K2) (fuel : Nat) :
    ∀ st : CenterState, st.reads % 2 = 0 → st.readCount = 0 →
      getAxisCenterLoop (alternating K1 K2) fuel st = none := by
  induction fuel with
  | zero =>
    intro st _ hc
    simp [getAxisCenterLoop, hc, sureCount]
  | succ fuel ih =>
    intro st hr hc
    have hlt : st.readCount < sureCount := by rw [hc]; decide
    have hdiff : alternating K1 K2 (st.reads + 1) ≠ alternating K1 K2 st.reads := by
      have e1 : (st.reads + 1) % 2 ≠ 0 := by omega
      simp only [alternating, hr, e1, if_true, if_false]
      exact fun e => h e.symm
    rw [getAxisCenterLoop_step _ _ st hlt, getAxisCenterBody_differ _ st hdiff]
    exact ih _ (by simp only; omega) rfl

theorem getAxisCenterBody_alternating (K1 K2 : Nat) (h : K1 ≠ K2) (n : Nat) :
    ((getAxisCenterBody (alternating K1 K2))^[n] centerInit).reads % 2 = 0 ∧
      ((getAxisCenterBody (alternating K1 K2))^[n] centerInit).readCount = 0 := by
  induction n with
  | zero => exact ⟨rfl, rfl⟩
  | succ n ih =>
    rw [Function.iterate_succ_apply']
    have hdiff : alternating K1 K2
          (((getAxisCenterBody (alternating K1 K2))^[n] centerInit).reads + 1) ≠
        alternating K1 K2 ((getAxisCenterBody (alternating K1 K2))^[n] centerInit).reads := by
      have e1 : (((getAxisCenterBody (alternating K1 K2))^[n] centerInit).reads + 1) % 2 ≠ 0 := by
        omega
      simp only [alternating, ih.1, e1, if_true, if_false]
      exact fun e => h e.symm
    rw [getAxisCenterBody_differ _ _ hdiff]
    exact ⟨by simp only; omega, rfl⟩

/-- C10: on a channel that alternates `K1, K2, K1, K2, …` with `K1 ≠ K2`, for every bound
`n` the loop of `getAxisCenter` has not returned after `n` iterations, and the agreement
counter after `n` executions of the loop body is 0, below the threshold 10. -/
theorem getAxisCenter_alternating_never_returns (K1 K2 : Nat) (h : K1 ≠ K2) (n : Nat) :
    getAxisCenter (alternating K1 K2) n = none ∧
      ((getAxisCenterBody (alternating K1 K2))^[n] centerInit).readCount = 0 ∧
      ((getAxisCenterBody (alternating K1 K2))^[n] centerInit).readCount < sureCount := by
  have hc := (getAxisCenterBody_alternating K1 K2 h n).2
  refine ⟨?_, hc, by rw [hc]; decide⟩
  unfold getAxisCenter getAxisCenterRun
  rw [getAxisCenterLoop_alternating K1 K2 h n centerInit rfl rfl]
  rfl

theorem getAxisCenter_alternating_never_returns_witness :
    getAxisCenter (alternating 511 512) 1000 = none ∧
      ((getAxisCenterBody (alternating 511 512))^[1000] centerInit).readCount = 0 ∧
      ((getAxisCenterBody (alternating 511 512))^[1000] centerInit).readCount < sureCount :=
  getAxisCenter_alternating_never_returns 511 512 (by decide) 1000

/-! ## Byte compression and reversal -/

/-- On an in-range normalized sample `castToByte` is the truncating integer rescale. -/
theorem castToByte_natCast (n : Nat) (h : n ≤ 1023) :
    castToByte (n : Int) = n * 255 / 1023 := by
  have e : map (n : Int) 0 (XY_MAX_IN : Nat) 0 (XY_MAX_OUT : Nat) = ((n * 255 / 1023 : Nat) : Int) := by
    unfold map XY_MAX_IN XY_MAX_OUT
    rw [Int.tdiv_eq_ediv (by push_cast; omega) (by norm_num)]
    push_cast
    omega
  unfold castToByte
  rw [e]
  unfold toByte
  omega

/-- The rescale `map(v, 0, 255, 255, 0)` is the subtraction from 255, for every `v ≥ 0`. -/
theorem map_reverse (v : Nat) :
    map (v : Int) 0 (XY_MAX_OUT : Nat) (XY_MAX_OUT : Nat) 0 = 255 - (v : Int) := by
  unfold map XY_MAX_OUT
  have e1 : ((v : Int) - 0) * (0 - ((255 : Nat) : Int)) = (-(v : Int)) * 255 := by
    push_cast; ring
  have e2 : (((255 : Nat) : Int) - 0) = 255 := by norm_num
  rw [e1, e2, Int.mul_tdiv_cancel _ (by norm_num)]
  push_cast
  ring

/-- Closed form of `reverse` on its `byte` argument. -/
theorem reverse_eq_sub (v : Nat) : reverse v = 255 - v % 256 := by
  unfold reverse
  rw [map_reverse]
  unfold toByte
  omega

/-- The exact quotient behind `castToByte`, its floor and its rounding. -/
theorem rescale_floor_round (n : Nat) (h : n ≤ 1023) :
    ⌊(n : ℚ) * (255 : ℚ) / (1023 : ℚ)⌋ = ((n * 255 / 1023 : Nat) : Int) ∧
      ⌊(n : ℚ) * (255 : ℚ) / (1023 : ℚ)⌋ ≤ round ((n : ℚ) * (255 : ℚ) / (1023 : ℚ)) ∧
      round ((n : ℚ) * (255 : ℚ) / (1023 : ℚ)) ≤ ⌊(n : ℚ) * (255 : ℚ) / (1023 : ℚ)⌋ + 1 ∧
      round ((n : ℚ) * (255 : ℚ) / (1023 : ℚ)) ≤ 255 := by
  have hx : (n : ℚ) * (255 : ℚ) / (1023 : ℚ) ≤ 255 := by
    have hn : (n : ℚ) ≤ 1023 := by exact_mod_cast h
    rw [div_le_iff₀ (by norm_num)]
    nlinarith
  refine ⟨?_, ?_, ?_, ?_⟩
  · have e : (n : ℚ) * (255 : ℚ) / (1023 : ℚ) = ((n * 255 : Nat) : ℚ) / ((1023 : Nat) : ℚ) := by
      push_cast; ring
    rw [e, Rat.floor_natCast_div_natCast]
    norm_cast
  · rw [round_eq]
    exact Int.floor_le_floor (by linarith)
  · rw [round_eq, ← Int.floor_add_one]
    exact Int.floor_le_floor (by linarith)
  · rw [round_eq]
    have : ⌊(n : ℚ) * (255 : ℚ) / (1023 : ℚ) + 1 / 2⌋ < 256 := by
      rw [Int.floor_lt]
      push_cast
      linarith
    omega

/-- C11 (counterexample): the normalized sample 3 is compressed by `castToByte` to 0,
while the rounded rescale `round(3 × 255 / 1023)` of the specification is 1. -/
theorem castToByte_not_rounded :
    castToByte 3 = 0 ∧ compressSpec 3 1023 255 = 1 := by
  refine ⟨by decide, ?_⟩
  have hr : round (((3 : Nat) : ℚ) * ((255 : Nat) : ℚ) / ((1023 : Nat) : ℚ)) = 1 := by
    rw [round_eq, Int.floor_eq_iff]
    constructor <;> norm_num
  unfold compressSpec
  rw [hr]
  decide

/-- C11 (amended): for every normalized sample `n` in `[0, 1023]`, `castToByte n` is the
truncated linear rescale `⌊n × 255 / 1023⌋`; it lies in `[0, 255]`, and it is the rounded
rescale of the specification or one less. -/
theorem castToByte_truncated_rescale (n : Nat) (h : n ≤ 1023) :
    castToByte (n : Int) = ⌊(n : ℚ) * (255 : ℚ) / (1023 : ℚ)⌋.toNat ∧
      castToByte (n : Int) ≤ 255 ∧
      castToByte (n : Int) ≤ compressSpec n 1023 255 ∧
      compressSpec n 1023 255 ≤ castToByte (n : Int) + 1 := by
  obtain ⟨h1, h2, h3, h4⟩ := rescale_floor_round n h
  have hc := castToByte_natCast n h
  have hs : compressSpec n 1023 255 =
      (round ((n : ℚ) * (255 : ℚ) / (1023 : ℚ))).toNat := by
    unfold compressSpec
    have h0 : (0 : Int) ≤ round ((n : ℚ) * (255 : ℚ) / (1023 : ℚ)) := by
      rw [h1] at h2; omega
    push_cast
    rw [min_eq_right h4, max_eq_right h0]
  rw [hs, hc, h1]
  rw [h1] at h2 h3
  refine ⟨(Int.toNat_ofNat _).symm, by omega, by omega, by omega⟩

theorem castToByte_truncated_rescale_witness :
    castToByte ((1022 : Nat) : Int) = ⌊((1022 : Nat) : ℚ) * (255 : ℚ) / (1023 : ℚ)⌋.toNat ∧
      castToByte ((1022 : Nat) : Int) ≤ 255 ∧
      castToByte ((1022 : Nat) : Int) ≤ compressSpec 1022 1023 255 ∧
      compressSpec 1022 1023 255 ≤ castToByte ((1022 : Nat) : Int) + 1 :=
  castToByte_truncated_rescale 1022 (by decide)

/-- C12: `castToByte` is monotonic non-decreasing on `[0, 1023]`, and it sends 0 to 0 and
1023 to 255. -/
theorem castToByte_monotone (a b : Nat) (hab : a ≤ b) (hb : b ≤ 1023) :
    castToByte (a : Int) ≤ castToByte (b : Int) ∧
      castToByte 0 = 0 ∧ castToByte 1023 = 255 := by
  rw [castToByte_natCast a (by omega), castToByte_natCast b hb]
  exact ⟨Nat.div_le_div_right (Nat.mul_le_mul_right _ hab), by decide, by decide⟩

theorem castToByte_monotone_witness :
    castToByte ((508 : Nat) : Int) ≤ castToByte ((509 : Nat) : Int) ∧
      castToByte 0 = 0 ∧ castToByte 1023 = 255 :=
  castToByte_monotone 508 509 (by decide) (by decide)

/-- C13: for every byte `v` in `[0, 255]`, the integer rescale `map(v, 0, 255, 255, 0)`
is `255 - v`, so `reverse v = 255 - v`; in particular `reverse 0 = 255` and
`reverse 255 = 0`. -/
theorem reverse_is_subtraction (v : Nat) (h : v ≤ 255) :
    map (v : Int) 0 (XY_MAX_OUT : Nat) (XY_MAX_OUT : Nat) 0 = ((255 - v : Nat) : Int) ∧
      reverse v = 255 - v ∧ reverse 0 = 255 ∧ reverse 255 = 0 := by
  refine ⟨?_, ?_, by decide, by decide⟩
  · rw [map_reverse]; omega
  · rw [reverse_eq_sub, Nat.mod_eq_of_lt (by omega)]

theorem reverse_is_subtraction_witness :
    map ((100 : Nat) : Int) 0 (XY_MAX_OUT : Nat) (XY_MAX_OUT : Nat) 0
        = ((255 - 100 : Nat) : Int) ∧
      reverse 100 = 255 - 100 ∧ reverse 0 = 255 ∧ reverse 255 = 0 :=
  reverse_is_subtraction 100 (by decide)

/-- C14: `reverse` is an involution on bytes: `reverse (reverse v) = v` for every `v` in
`[0, 255]`. -/
theorem reverse_involution (v : Nat) (h : v ≤ 255) : reverse (reverse v) = v := by
  rw [reverse_eq_sub, reverse_eq_sub]
  omega

theorem reverse_involution_witness : reverse (reverse 127) = 127 :=
  reverse_involution 127 (by decide)

/-! ## Range and definedness of the projection -/

theorem projNat_le_of_sample_le (pos l u M : Nat) (hp : pos ≤ M) : projNat pos l u M ≤ M := by
  unfold projNat
  split_ifs with h1 h2
  · have : pos * (M / 2) / l ≤ M / 2 := by
      rw [Nat.div_le_iff_le_mul_add_pred (by omega)]
      have : pos * (M / 2) ≤ l * (M / 2) := Nat.mul_le_mul_right _ (by omega)
      omega
    omega
  · have := high_le_half pos u M (M / 2) hp (by omega)
    omega
  · omega

/-- The divisors of the two projection branches, for an in-range sample and any edges. -/
theorem readJoyAxis_divisors (pos l u M : Nat) (hM : M < 65536) (hp : pos ≤ M) :
    (pos < l → l ≠ 0 ∧ floatDiv (pos : ℚ) (l : ℚ) ≠ none) ∧
    (pos > u → toWord ((M : Int) - (u : Int)) ≠ 0 ∧
      floatDiv ((toWord ((pos : Int) - (u : Int)) : Nat) : ℚ)
        ((toWord ((M : Int) - (u : Int)) : Nat) : ℚ) ≠ none) := by
  constructor
  · intro h
    have hl : l ≠ 0 := by omega
    have hne : (l : ℚ) ≠ 0 := by exact_mod_cast hl
    exact ⟨hl, by simp [floatDiv, hne]⟩
  · intro h
    have e : toWord ((M : Int) - (u : Int)) = M - u := toWord_sub _ _ (by omega) hM
    have hd : M - u ≠ 0 := by omega
    have hne : ((M - u : Nat) : ℚ) ≠ 0 := by exact_mod_cast hd
    rw [e]
    exact ⟨hd, by simp [floatDiv, hne]⟩

theorem map_rescale (n : Nat) :
    map (n : Int) 0 (XY_MAX_IN : Nat) 0 (XY_MAX_OUT : Nat) = ((n * 255 / 1023 : Nat) : Int) := by
  unfold map XY_MAX_IN XY_MAX_OUT
  rw [Int.tdiv_eq_ediv (by push_cast; omega) (by norm_num)]
  push_cast
  omega

theorem wordToInt_small (v : Nat) (h : v < 32768) : wordToInt v = (v : Int) := by
  unfold wordToInt
  have e : v % 65536 = v := Nat.mod_eq_of_lt (by omega)
  rw [e, if_pos h]

theorem readJoyAxis_congr (f g : Nat → Nat) (p q l u M : Nat) (h : f p = g q) :
    readJoyAxis f p l u M = readJoyAxis g q l u M := by
  unfold readJoyAxis
  rw [h]

/-- C15: `readJoyAxisAsByte` composes `castToByte` after `readJoyAxis` on the selected
axis, with that axis's pin and the edges `center ∓ DEADZONE_RADIUS` and `XY_MAX_IN`; on a
valid configuration the result is `castToByte` of the piecewise projection of the sample;
and the result on an axis is determined by that axis's sample, its center and the radius
alone. -/
theorem readJoyAxisAsByte_composition (j j2 : Joy) (f f2 : Nat → Nat) :
    (readJoyAxisAsByte j f X_AXIS =
        (readJoyAxis f j.X_PIN
          (toWord ((j.x_center : Int) - (j.DEADZONE_RADIUS : Int)))
          (toWord ((j.x_center : Int) + (j.DEADZONE_RADIUS : Int))) 1023).map
          fun w => castToByte (wordToInt w)) ∧
    (readJoyAxisAsByte j f Y_AXIS =
        (readJoyAxis f j.Y_PIN
          (toWord ((j.y_center : Int) - (j.DEADZONE_RADIUS : Int)))
          (toWord ((j.y_center : Int) + (j.DEADZONE_RADIUS : Int))) 1023).map
          fun w => castToByte (wordToInt w)) ∧
    (j.DEADZONE_RADIUS < j.x_center → j.x_center + j.DEADZONE_RADIUS < 1023 →
      f j.X_PIN ≤ 1023 →
      readJoyAxisAsByte j f X_AXIS =
        some (castToByte (projectSpec (f j.X_PIN) (j.x_center - j.DEADZONE_RADIUS)
          (j.x_center + j.DEADZONE_RADIUS) 1023 : Nat))) ∧
    (j.DEADZONE_RADIUS < j.y_center → j.y_center + j.DEADZONE_RADIUS < 1023 →
      f j.Y_PIN ≤ 1023 →
      readJoyAxisAsByte j f Y_AXIS =
        some (castToByte (projectSpec (f j.Y_PIN) (j.y_center - j.DEADZONE_RADIUS)
          (j.y_center + j.DEADZONE_RADIUS) 1023 : Nat))) ∧
    (j.x_center = j2.x_center → j.DEADZONE_RADIUS = j2.DEADZONE_RADIUS →
      f j.X_PIN = f2 j2.X_PIN →
      readJoyAxisAsByte j f X_AXIS = readJoyAxisAsByte j2 f2 X_AXIS) ∧
    (j.y_center = j2.y_center → j.DEADZONE_RADIUS = j2.DEADZONE_RADIUS →
      f j.Y_PIN = f2 j2.Y_PIN →
      readJoyAxisAsByte j f Y_AXIS = readJoyAxisAsByte j2 f2 Y_AXIS) := by
  have hx : ∀ (k : Joy) (g : Nat → Nat), readJoyAxisAsByte k g X_AXIS =
      (readJoyAxis g k.X_PIN (x_lower_edge k) (x_upper_edge k) XY_MAX_IN).map
        fun w => castToByte (wordToInt w) := by
    intro k g
    unfold readJoyAxisAsByte
    rw [if_pos rfl]
  have hy : ∀ (k : Joy) (g : Nat → Nat), readJoyAxisAsByte k g Y_AXIS =
      (readJoyAxis g k.Y_PIN (y_lower_edge k) (y_upper_edge k) XY_MAX_IN).map
        fun w => castToByte (wordToInt w) := by
    intro k g
    unfold readJoyAxisAsByte
    rw [if_neg (by decide), if_pos rfl]
  refine ⟨hx j f, hy j f, ?_, ?_, ?_, ?_⟩
  · intro h1 h2 h3
    have el : x_lower_edge j = j.x_center - j.DEADZONE_RADIUS :=
      toWord_sub _ _ (by omega) (by omega)
    have eu : x_upper_edge j = j.x_center + j.DEADZONE_RADIUS :=
      toWord_add _ _ (by omega)
    have hle := projNat_le_of_sample_le (f j.X_PIN) (j.x_center - j.DEADZONE_RADIUS)
      (j.x_center + j.DEADZONE_RADIUS) 1023 h3
    rw [hx, el, eu]
    unfold XY_MAX_IN
    rw [readJoyAxis_eq_projNat f j.X_PIN _ _ (by omega) (by omega) h2 h3,
      projectSpec_eq_projNat _ _ _ _ h2]
    simp only [Option.map_some', XY_MAX_IN]
    rw [wordToInt_small _ (by omega)]
  · intro h1 h2 h3
    have el : y_lower_edge j = j.y_center - j.DEADZONE_RADIUS :=
      toWord_sub _ _ (by omega) (by omega)
    have eu : y_upper_edge j = j.y_center + j.DEADZONE_RADIUS :=
      toWord_add _ _ (by omega)
    have hle := projNat_le_of_sample_le (f j.Y_PIN) (j.y_center - j.DEADZONE_RADIUS)
      (j.y_center + j.DEADZONE_RADIUS) 1023 h3
    rw [hy, el, eu]
    unfold XY_MAX_IN
    rw [readJoyAxis_eq_projNat f j.Y_PIN _ _ (by omega) (by omega) h2 h3,
      projectSpec_eq_projNat _ _ _ _ h2]
    simp only [Option.map_some', XY_MAX_IN]
    rw [wordToInt_small _ (by omega)]
  · intro h1 h2 h3
    rw [hx j f, hx j2 f2]
    unfold x_lower_edge x_upper_edge
    rw [h1, h2, readJoyAxis_congr f f2 j.X_PIN j2.X_PIN _ _ _ h3]
  · intro h1 h2 h3
    rw [hy j f, hy j2 f2]
    unfold y_lower_edge y_upper_edge
    rw [h1, h2, readJoyAxis_congr f f2 j.Y_PIN j2.Y_PIN _ _ _ h3]

theorem readJoyAxisAsByte_composition_witness :
    readJoyAxisAsByte ⟨0, 1, 7, 3, 512, 400⟩ (fun p => if p = 0 then 508 else 900) X_AXIS =
        some (castToByte (projectSpec 508 (512 - 3) (512 + 3) 1023 : Nat)) ∧
      readJoyAxisAsByte ⟨0, 1, 7, 3, 512, 400⟩ (fun p => if p = 0 then 508 else 900) X_AXIS =
        readJoyAxisAsByte ⟨5, 6, 8, 3, 512, 77⟩ (fun p => if p = 5 then 508 else 12) X_AXIS :=
  ⟨(readJoyAxisAsByte_composition ⟨0, 1, 7, 3, 512, 400⟩ ⟨5, 6, 8, 3, 512, 77⟩
      (fun p => if p = 0 then 508 else 900) (fun p => if p = 5 then 508 else 12)).2.2.1
      (by decide) (by decide) (by decide),
    (readJoyAxisAsByte_composition ⟨0, 1, 7, 3, 512, 400⟩ ⟨5, 6, 8, 3, 512, 77⟩
      (fun p => if p = 0 then 508 else 900) (fun p => if p = 5 then 508 else 12)).2.2.2.2.1
      rfl rfl rfl⟩

/-- C16: for every selector other than `X_AXIS` (0) and `Y_AXIS` (1), `readJoyAxisAsByte`
returns 0, whatever the channels would deliver (no channel is sampled) and without any
error result. -/
theorem readJoyAxisAsByte_invalid_selector (j : Joy) (f : Nat → Nat) (axis : Nat)
    (hx : axis ≠ X_AXIS) (hy : axis ≠ Y_AXIS) :
    readJoyAxisAsByte j f axis = some 0 ∧
      ∀ g : Nat → Nat, readJoyAxisAsByte j g axis = readJoyAxisAsByte j f axis := by
  have h : ∀ g : Nat → Nat, readJoyAxisAsByte j g axis = some 0 := by
    intro g
    unfold readJoyAxisAsByte
    rw [if_neg hx, if_neg hy]
  exact ⟨h f, fun g => (h g).trans (h f).symm⟩

theorem readJoyAxisAsByte_invalid_selector_witness :
    readJoyAxisAsByte ⟨0, 1, 7, 3, 512, 512⟩ (fun _ => 700) 2 = some 0 ∧
      ∀ g : Nat → Nat, readJoyAxisAsByte ⟨0, 1, 7, 3, 512, 512⟩ g 2 =
        readJoyAxisAsByte ⟨0, 1, 7, 3, 512, 512⟩ (fun _ => 700) 2 :=
  readJoyAxisAsByte_invalid_selector ⟨0, 1, 7, 3, 512, 512⟩ (fun _ => 700) 2
    (by decide) (by decide)

/-- C17: on a valid configuration and a sample in `[0, rawMax]`, `readJoyAxis` is defined
(the narrowing to `word` does not wrap) and its result lies in `[0, rawMax]`; for
`rawMax ≤ XY_MAX_IN` the result passes to `castToByte` unchanged and the rescaled value
lies in `[0, 255]`, so the narrowing to `byte` does not wrap either. -/
theorem readJoyAxis_in_range (analogRead : Nat → Nat)
    (axis_pin lowerEdge upperEdge rawMax : Nat)
    (hl : 0 < lowerEdge) (hlu : lowerEdge ≤ upperEdge) (hu : upperEdge < rawMax)
    (hM : rawMax < 65536) (hp : analogRead axis_pin ≤ rawMax) :
    ∃ v, readJoyAxis analogRead axis_pin lowerEdge upperEdge rawMax = some v ∧ v ≤ rawMax ∧
      (rawMax ≤ XY_MAX_IN →
        wordToInt v = (v : Int) ∧
        0 ≤ map (wordToInt v) 0 (XY_MAX_IN : Nat) 0 (XY_MAX_OUT : Nat) ∧
        map (wordToInt v) 0 (XY_MAX_IN : Nat) 0 (XY_MAX_OUT : Nat) ≤ 255 ∧
        (castToByte (wordToInt v) : Int) =
          map (wordToInt v) 0 (XY_MAX_IN : Nat) 0 (XY_MAX_OUT : Nat)) := by
  have hle := projF32_le (analogRead axis_pin) lowerEdge upperEdge rawMax hM hp
  refine ⟨_, readJoyAxis_eq_projF32 analogRead axis_pin lowerEdge upperEdge rawMax hM hp,
    hle, ?_⟩
  intro hmax
  unfold XY_MAX_IN at hmax
  have hw := wordToInt_small (projF32 (analogRead axis_pin) lowerEdge upperEdge rawMax)
    (by omega)
  rw [hw, map_rescale, castToByte_natCast _ (by omega)]
  refine ⟨rfl, by omega, by omega, rfl⟩

theorem readJoyAxis_in_range_witness :
    ∃ v, readJoyAxis (fun _ => 1023) 0 509 515 1023 = some v ∧ v ≤ 1023 ∧
      (1023 ≤ XY_MAX_IN →
        wordToInt v = (v : Int) ∧
        0 ≤ map (wordToInt v) 0 (XY_MAX_IN : Nat) 0 (XY_MAX_OUT : Nat) ∧
        map (wordToInt v) 0 (XY_MAX_IN : Nat) 0 (XY_MAX_OUT : Nat) ≤ 255 ∧
        (castToByte (wordToInt v) : Int) =
          map (wordToInt v) 0 (XY_MAX_IN : Nat) 0 (XY_MAX_OUT : Nat)) :=
  readJoyAxis_in_range (fun _ => 1023) 0 509 515 1023
    (by decide) (by decide) (by decide) (by decide) (by decide)

/-- C18 (counterexample): with edges 394 and 400 and `rawMax = 1023`, the sample 401,
strictly above the upper edge, is projected to the centered value `1023 / 2 = 511`, not
strictly above it. -/
theorem readJoyAxis_center_above_deadzone :
    readJoyAxis (fun _ => 401) 0 394 400 1023 = some (1023 / 2) ∧
      ¬ ∃ v, readJoyAxis (fun _ => 401) 0 394 400 1023 = some v ∧ 1023 / 2 < v := by
  have h := readJoyAxis_eq_projNat (fun _ => 401) 0 394 400
    (by decide) (by decide) (by decide) (by decide)
  have e : projNat ((fun _ : Nat => 401) 0) 394 400 1023 = 1023 / 2 := by decide
  rw [e] at h
  refine ⟨h, ?_⟩
  rintro ⟨v, hv, hlt⟩
  rw [h] at hv
  cases hv
  exact absurd hlt (by decide)

/-- C18 (amended): on a valid configuration and a sample in `[0, rawMax]`, a sample
strictly below `lowerEdge` projects into `[0, rawMax/2)`, and a sample strictly above
`upperEdge` projects into `[rawMax/2, rawMax]`; for `rawMax = XY_MAX_IN = 1023`, the value
the driver passes, it is strictly above `rawMax/2` exactly when
`rawMax - upperEdge ≤ (sample - upperEdge) * (rawMax/2)`. -/
theorem readJoyAxis_segments (analogRead : Nat → Nat)
    (axis_pin lowerEdge upperEdge rawMax : Nat)
    (hl : 0 < lowerEdge) (hlu : lowerEdge ≤ upperEdge) (hu : upperEdge < rawMax)
    (hM : rawMax < 65536) (hp : analogRead axis_pin ≤ rawMax) :
    (analogRead axis_pin < lowerEdge →
      ∃ v, readJoyAxis analogRead axis_pin lowerEdge upperEdge rawMax = some v ∧
        v < rawMax / 2) ∧
    (upperEdge < analogRead axis_pin →
      ∃ v, readJoyAxis analogRead axis_pin lowerEdge upperEdge rawMax = some v ∧
        rawMax / 2 ≤ v ∧ v ≤ rawMax ∧
        (rawMax = XY_MAX_IN →
          (rawMax / 2 < v ↔
            rawMax - upperEdge ≤ (analogRead axis_pin - upperEdge) * (rawMax / 2)))) := by
  have heq := readJoyAxis_eq_projF32 analogRead axis_pin lowerEdge upperEdge rawMax hM hp
  have hle := projF32_le (analogRead axis_pin) lowerEdge upperEdge rawMax hM hp
  constructor
  · intro h
    refine ⟨_, heq, ?_⟩
    unfold projF32
    rw [if_pos h]
    exact floor_toNat_lt _ _ (by omega)
      (f32_low_lt (analogRead axis_pin) lowerEdge (rawMax / 2) h (by omega) (by omega))
  · intro h
    refine ⟨_, heq, ?_, hle, ?_⟩
    · unfold projF32
      rw [if_neg (by omega), if_pos h]
      exact le_floor_toNat _ _ (f32_high_bounds (analogRead axis_pin - upperEdge)
        (rawMax - upperEdge) (rawMax / 2) (by omega) (by omega) (by omega)).1
    · intro hmax
      unfold XY_MAX_IN at hmax
      subst hmax
      rw [projF32_eq_projNat_1023 _ _ _ hl hlu hu hp]
      unfold projNat
      rw [if_neg (by omega), if_pos h]
      have hd : 0 < 1023 - upperEdge := by omega
      rw [← Nat.one_le_div_iff hd]
      omega

theorem readJoyAxis_segments_witness :
    (∃ v, readJoyAxis (fun _ => 508) 0 509 515 1023 = some v ∧ v < 1023 / 2) ∧
    (∃ v, readJoyAxis (fun _ => 516) 0 509 515 1023 = some v ∧
        1023 / 2 ≤ v ∧ v ≤ 1023 ∧
        (1023 = XY_MAX_IN →
          (1023 / 2 < v ↔ 1023 - 515 ≤ ((fun _ : Nat => 516) 0 - 515) * (1023 / 2)))) :=
  ⟨(readJoyAxis_segments (fun _ => 508) 0 509 515 1023
      (by decide) (by decide) (by decide) (by decide) (by decide)).1 (by decide),
    (readJoyAxis_segments (fun _ => 516) 0 509 515 1023
      (by decide) (by decide) (by decide) (by decide) (by decide)).2 (by decide)⟩

/-- C19: for every center and radius (edges computed with 16-bit wrap-around), every
`axis_max` that fits a `word` and every sample in `[0, axis_max]`, the branch `readJoyAxis`
takes has a nonzero divisor (`pos < lower_edge` forces `lower_edge ≠ 0`, `pos > upper_edge`
forces `axis_max - upper_edge ≠ 0`), its `float` division is defined, and `readJoyAxis`
returns a value; on the x axis and on the y axis. -/
theorem readJoyAxis_no_division_by_zero (j : Joy) (analogRead : Nat → Nat) (axis_max : Nat)
    (hM : axis_max < 65536) :
    (analogRead j.X_PIN ≤ axis_max →
      (analogRead j.X_PIN < x_lower_edge j →
        x_lower_edge j ≠ 0 ∧
        floatDiv (analogRead j.X_PIN : ℚ) (x_lower_edge j : ℚ) ≠ none) ∧
      (analogRead j.X_PIN > x_upper_edge j →
        toWord ((axis_max : Int) - (x_upper_edge j : Int)) ≠ 0 ∧
        floatDiv ((toWord ((analogRead j.X_PIN : Int) - (x_upper_edge j : Int)) : Nat) : ℚ)
          ((toWord ((axis_max : Int) - (x_upper_edge j : Int)) : Nat) : ℚ) ≠ none) ∧
      ∃ v, readJoyAxis analogRead j.X_PIN (x_lower_edge j) (x_upper_edge j) axis_max
        = some v) ∧
    (analogRead j.Y_PIN ≤ axis_max →
      (analogRead j.Y_PIN < y_lower_edge j →
        y_lower_edge j ≠ 0 ∧
        floatDiv (analogRead j.Y_PIN : ℚ) (y_lower_edge j : ℚ) ≠ none) ∧
      (analogRead j.Y_PIN > y_upper_edge j →
        toWord ((axis_max : Int) - (y_upper_edge j : Int)) ≠ 0 ∧
        floatDiv ((toWord ((analogRead j.Y_PIN : Int) - (y_upper_edge j : Int)) : Nat) : ℚ)
          ((toWord ((axis_max : Int) - (y_upper_edge j : Int)) : Nat) : ℚ) ≠ none) ∧
      ∃ v, readJoyAxis analogRead j.Y_PIN (y_lower_edge j) (y_upper_edge j) axis_max
        = some v) := by
  constructor
  · intro hp
    obtain ⟨h1, h2⟩ := readJoyAxis_divisors (analogRead j.X_PIN) (x_lower_edge j)
      (x_upper_edge j) axis_max hM hp
    exact ⟨h1, h2, _, readJoyAxis_eq_projF32 analogRead j.X_PIN _ _ axis_max hM hp⟩
  · intro hp
    obtain ⟨h1, h2⟩ := readJoyAxis_divisors (analogRead j.Y_PIN) (y_lower_edge j)
      (y_upper_edge j) axis_max hM hp
    exact ⟨h1, h2, _, readJoyAxis_eq_projF32 analogRead j.Y_PIN _ _ axis_max hM hp⟩

theorem readJoyAxis_no_division_by_zero_witness :
    ∃ v, readJoyAxis (fun _ => 6) 0 (x_lower_edge ⟨0, 1, 7, 3, 2, 1021⟩)
      (x_upper_edge ⟨0, 1, 7, 3, 2, 1021⟩) 1023 = some v :=
  ((readJoyAxis_no_division_by_zero ⟨0, 1, 7, 3, 2, 1021⟩ (fun _ => 6) 1023 (by decide)).1
    (by decide)).2.2

/-! ## Exact termination of the calibration loop -/

/-- The run returns within `fuel` iterations once some iteration `n ≤ fuel` completes ten
agreeing iterations. -/
theorem getAxisCenterRun_returns (f : Nat → Nat) (n fuel : Nat) (hn : n ≤ fuel)
    (h : tenPairsAgree f n) : ∃ r, getAxisCenterRun f fuel = some r := by
  obtain ⟨hn10, hrun⟩ := h
  unfold getAxisCenterRun
  have hsplit : fuel = (n - 10) + (10 + (fuel - n)) := by omega
  rw [hsplit, getAxisCenterLoop_add]
  cases hfirst : getAxisCenterLoop f (n - 10) centerInit with
  | some r => exact ⟨r, rfl⟩
  | none =>
    simp only
    rw [getAxisCenterLoop_add]
    have hreads := getAxisCenterBody_iterate_reads f (n - 10) centerInit
    obtain ⟨r, hr⟩ := getAxisCenterLoop_complete f 10
      ((getAxisCenterBody f)^[n - 10] centerInit) (n - 10)
      (by rw [hreads]; simp [centerInit])
      (fun i hi1 hi2 => hrun i hi1 (by omega)) (by omega)
    rw [hr]
    exact ⟨r, rfl⟩

/-- A returning run stops at the first iteration that completes ten agreeing iterations,
in the state that iteration leaves. -/
theorem getAxisCenterRun_first (f : Nat → Nat) (fuel : Nat) (r : CenterState)
    (h : getAxisCenterRun f fuel = some r) :
    ∃ n, n ≤ fuel ∧ tenPairsAgree f n ∧ (∀ m, m < n → ¬ tenPairsAgree f m) ∧
      r = { lastRead := f (2 * (n - 1)), readCount := 10, reads := 2 * n } := by
  obtain ⟨n, -, h2, h3, h4, h5, h6, h7⟩ :=
    getAxisCenterLoop_sound f fuel centerInit r 0 rfl (Nat.le_refl 0)
      (by decide) (fun i _ hi => absurd hi (Nat.not_lt_zero i))
      (fun h => absurd h (Nat.lt_irrefl 0)) h
  refine ⟨n, by omega, ⟨h3, h6⟩, ?_, ?_⟩
  · intro m hm hagree
    obtain ⟨r2, hr2⟩ := getAxisCenterRun_returns f m m (le_refl m) hagree
    obtain ⟨n2, -, hb, -, hreads2, -⟩ :=
      getAxisCenterLoop_sound f m centerInit r2 0 rfl (Nat.le_refl 0)
        (by decide) (fun i _ hi => absurd hi (Nat.not_lt_zero i))
        (fun h => absurd h (Nat.lt_irrefl 0)) hr2
    have hmono := getAxisCenterLoop_mono f m (fuel - m) centerInit r2 hr2
    have hfuel : m + (fuel - m) = fuel := by omega
    rw [hfuel] at hmono
    unfold getAxisCenterRun at h
    rw [h] at hmono
    cases hmono
    omega
  · cases r with
    | mk lr rc rd =>
      simp only at h4 h5 h7
      rw [h4, h5, h7]

/-- C20: `getAxisCenter` returns exactly at the first loop iteration `n` that completes
ten consecutive iterations whose two samples (the disjoint pair `2n-2`, `2n-1`) are equal:
the run returns a final state within `fuel` iterations iff such a first `n ≤ fuel`
exists, and then it has consumed `2 * n` samples (an even number, at least 20), its
agreement counter is 10, and the value returned is the first sample of the last pair,
which equals the last sample read (a value actually sampled, not the initial 0 of
`lastRead`). -/
theorem getAxisCenter_exact_termination (analogRead : Nat → Nat) (fuel : Nat)
    (r : CenterState) :
    (getAxisCenterRun analogRead fuel = some r ↔
      ∃ n, n ≤ fuel ∧ tenPairsAgree analogRead n ∧
        (∀ m, m < n → ¬ tenPairsAgree analogRead m) ∧
        r = { lastRead := analogRead (2 * (n - 1)), readCount := 10, reads := 2 * n }) ∧
    (getAxisCenterRun analogRead fuel = some r →
      r.reads % 2 = 0 ∧ 20 ≤ r.reads ∧
        r.lastRead = analogRead (r.reads - 2) ∧
        r.lastRead = analogRead (r.reads - 1) ∧
        getAxisCenter analogRead fuel = some (toWord (analogRead (r.reads - 1)))) := by
  constructor
  · constructor
    · exact getAxisCenterRun_first analogRead fuel r
    · rintro ⟨n, hn, hagree, hmin, hr⟩
      obtain ⟨r2, hr2⟩ := getAxisCenterRun_returns analogRead n fuel hn hagree
      obtain ⟨n2, -, hagree2, hmin2, hr2eq⟩ := getAxisCenterRun_first analogRead fuel r2 hr2
      have hnn : n2 = n := by
        rcases Nat.lt_trichotomy n2 n with hlt | heq | hgt
        · exact absurd hagree2 (hmin n2 hlt)
        · exact heq
        · exact absurd hagree (hmin2 n hgt)
      rw [hr2, hr2eq, hr, hnn]
  · intro h
    obtain ⟨n, -, ⟨hn10, hrun⟩, -, hr⟩ := getAxisCenterRun_first analogRead fuel r h
    have hlast : analogRead (2 * n - 1) = analogRead (2 * (n - 1)) := by
      have := hrun (n - 1) (by omega) (by omega)
      have e : 2 * (n - 1) + 1 = 2 * n - 1 := by omega
      rw [e] at this
      exact this
    have e2 : 2 * n - 2 = 2 * (n - 1) := by omega
    subst hr
    simp only
    refine ⟨by omega, by omega, by rw [e2], hlast.symm, ?_⟩
    unfold getAxisCenter
    rw [h]
    simp only [Option.map_some', hlast]

theorem getAxisCenter_exact_termination_witness :
    ∃ n, n ≤ 10 ∧ tenPairsAgree pairedRamp n ∧
      (∀ m, m < n → ¬ tenPairsAgree pairedRamp m) ∧
      ({ lastRead := 10, readCount := 10, reads := 20 } : CenterState) =
        { lastRead := pairedRamp (2 * (n - 1)), readCount := 10, reads := 2 * n } :=
  (getAxisCenter_exact_termination pairedRamp 10
    { lastRead := 10, readCount := 10, reads := 20 }).1.mp (by decide)

end KY023
